import Mathlib

/-!
Verification of the Alf framework's reactivity core (signals, computed
values, effects, batching), the JSX child normalization performed by
`h`, and the DOM renderer's subscription lifecycle, as a shallow
embedding in Lean.

Framework code is translated from `src/core/reactivity.ts`,
`src/core/jsx.ts` and `src/core/render.ts`.  User-supplied callbacks
(computed bodies, effect bodies, component functions, cleanups) are
represented by a small deep-embedded expression language `Expr`; the
framework functions (`sigRead`, `sigWrite`, `compUpdate`, `compRead`,
`compPeek`, `compNotify`, `effExecute`, `effDispose`, `batchRun`) are
direct translations of the corresponding source closures.  All
recursion through the listener graph is bounded by an explicit fuel
parameter; exhausting fuel is reported as the distinguished error
`RErr.fuel`, distinct from a user exception `RErr.thrown` (a thrown JS
exception).  State mutations performed before an exception persist, as
they do in JS.
-/

namespace Alf

set_option maxRecDepth 8000

/-- JS values stored in signals and computed values in this model: a
number or `null` (`none`).  Strict equality `!==` on this universe is
decidable equality on `Option Int`. -/
abbrev Val := Option Int

/-- JS `String(v)` on this value universe. -/
def valStr : Val → String
  | none => "null"
  | some n => toString n

/-! ## Virtual element builder (src/core/jsx.ts) -/

/-- The element `type` field: a tag string (DOM element) or a component
function, identified by a numeric id. -/
inductive ElemTy where
  | tag (s : String)
  | compFn (id : Nat)
deriving DecidableEq, Repr

/-- JS truthiness of a `type` field: a string is truthy iff nonempty; a
function is always truthy. -/
def ElemTy.truthy : ElemTy → Bool
  | .tag s => s != ""
  | .compFn _ => true

/-- A JS value that can appear among `h`'s rest `children` argument:
`null`, `undefined`, booleans, strings, numbers, virtual-element
objects, arrays, zero-argument callables (e.g. signals — represented by
the value the call returns), and other plain objects (represented by
their `String(.)` rendering). -/
inductive Child where
  | nullV
  | undef
  | boolV (b : Bool)
  | str (s : String)
  | num (n : Int)
  | elemC (ty : ElemTy) (props : List (String × String)) (cid : Nat)
  | arr (cs : List Child)
  | fnChild (ret : Val)
  | objPlain (shown : String)

/-- The record `h` returns (`AlfElement`): `type`, `props` (`none`
models a `null`/`undefined` field — `h` always fills the field), and
the normalized `children`. -/
structure AlfElement where
  type : ElemTy
  props : Option (List (String × String))
  children : List Child

mutual

/-- src/core/jsx.ts 38-70, `flattenChildren` on one child: drop
`null`/`undefined`/booleans; flatten arrays recursively; pass strings
and numbers through; pass objects with a truthy `type` through; replace
a zero-argument callable by `String(child())`; stringify anything
else.  The source mutates a `normalizedChildren` accumulator; here each
child contributes the list it would push. -/
def flattenChild : Child → List Child
  | .nullV => []
  | .undef => []
  | .boolV _ => []
  | .arr cs => flattenList cs
  | .str s => [.str s]
  | .num n => [.num n]
  | .elemC ty ps cid =>
    if ty.truthy then [.elemC ty ps cid] else [.str "[object Object]"]
  | .fnChild ret => [.str (valStr ret)]
  | .objPlain sh => [.str sh]

/-- `children.forEach(flattenChildren)` (src/core/jsx.ts 72). -/
def flattenList : List Child → List Child
  | [] => []
  | c :: cs => flattenChild c ++ flattenList cs

end

/-- src/core/jsx.ts 26-79, `h(type, props, ...children)`:
`props || {}` (a `none` argument models both `null` and omitted) and
the flattened, normalized children. -/
def h (ty : ElemTy) (props : Option (List (String × String)))
    (children : List Child) : AlfElement :=
  { type := ty
  , props := some (props.getD [])
  , children := flattenList children }

/-- src/core/jsx.ts 95-97, `Fragment`. -/
def Fragment (children : List Child) : AlfElement :=
  h (.tag "alf-fragment") (some []) children

/-- A normalized child: a string, a number, or a virtual-element
object — never `null`, `undefined`, a boolean, an array, or a
function. -/
def isNormalizedChild : Child → Bool
  | .str _ => true
  | .num _ => true
  | .elemC _ _ _ => true
  | _ => false

/-! ## Reactivity (src/core/reactivity.ts) -/

/-- The identity of a `Listener` closure stored in subscriber sets: a
computed's `notifyListeners` or an effect's `execute`. -/
inductive Listener where
  | compNotify (c : Nat)
  | effExec (e : Nat)
deriving DecidableEq, Repr

/-- Observable events, recorded in order: a signal store, a listener
invocation by a notification loop, a computed body evaluation, an
effect body run, a cleanup run. -/
inductive Ev where
  | stored (s : Nat) (v : Val)
  | invoked (l : Listener)
  | compEval (c : Nat)
  | effRun (e : Nat)
  | cleanupRun (e : Nat)
deriving DecidableEq, Repr

/-- Deep-embedded user code (the bodies handed to `computed`, `effect`,
`batch`, and the renderer's closures).  `attrUpd` is the body of the
renderer's `updateAttribute` (read a value, then set or remove a DOM
attribute); `renderTextInto` is the body of the renderer's
`renderComponent` for a component returning a primitive (allocate a
fresh text node and overwrite the captured `domNodes` local, modeled as
a slot). -/
inductive Expr where
  | lit (v : Val)
  | readSig (s : Nat)
  | peekSig (s : Nat)
  | readComp (c : Nat)
  | peekComp (c : Nat)
  | writeSig (s : Nat) (e : Expr)
  | seq (a b : Expr)
  | mulC (k : Int) (e : Expr)
  | addE (a b : Expr)
  | throwE
  | attrUpd (node : Nat) (name : String) (e : Expr)
  | renderTextInto (slot : Nat) (e : Expr)
deriving DecidableEq, Repr

/-- One signal's state: `value` and its JS `Set` of listeners
(insertion-ordered, duplicate-free). -/
structure SigSt where
  value : Val
  listeners : List Listener
deriving DecidableEq, Repr

/-- One computed's state: cached `value` (`none` models the initial
`undefined`), `isStale`, its listener set, and its body `fn`. -/
structure CompSt where
  value : Val
  isStale : Bool
  listeners : List Listener
  body : Expr
deriving DecidableEq, Repr

/-- One effect's state: the pending `cleanup` (`none` = `undefined`),
the `isRunning` re-entrancy guard, its body `fn`, and `ret` — the
cleanup value `fn` returns on successful completion. -/
structure EffSt where
  cleanup : Option Expr
  isRunning : Bool
  body : Expr
  ret : Option Expr
deriving DecidableEq, Repr

/-- A DOM node: a text node or an element node with its attributes. -/
inductive NodeSt where
  | textNode (content : String)
  | elemNode (attrs : List (String × String))
deriving DecidableEq, Repr

def defaultSig : SigSt := ⟨none, []⟩
def defaultComp : CompSt := ⟨none, true, [], .lit none⟩
def defaultEff : EffSt := ⟨none, false, .lit none, none⟩
def defaultNode : NodeSt := .textNode ""

/-- The whole program state: the heaps of signals/computeds/effects
(total maps with allocation counters), the module-level
`currentListener` and `listenerStack`, the DOM (`nodes`, the render
container's child list), the renderer's captured locals (`slots`), and
the event trace. -/
structure RState where
  sigs : Nat → SigSt
  nSigs : Nat
  comps : Nat → CompSt
  nComps : Nat
  effs : Nat → EffSt
  nEffs : Nat
  curListener : Option Listener
  stack : List Listener
  nodes : Nat → NodeSt
  nNodes : Nat
  container : List Nat
  slots : Nat → List Nat
  trace : List Ev

def initState : RState :=
  { sigs := fun _ => defaultSig, nSigs := 0
  , comps := fun _ => defaultComp, nComps := 0
  , effs := fun _ => defaultEff, nEffs := 0
  , curListener := none, stack := []
  , nodes := fun _ => defaultNode, nNodes := 0
  , container := [], slots := fun _ => [], trace := [] }

/-- Point update of a total map. -/
def upd {α : Type} (f : Nat → α) (i : Nat) (a : α) : Nat → α :=
  fun j => if j = i then a else f j

def addTrace (ev : Ev) (st : RState) : RState :=
  { st with trace := st.trace ++ [ev] }

/-- JS `Set.add`: append if absent (idempotent, insertion order). -/
def addIfAbsent (l : Listener) (ls : List Listener) : List Listener :=
  if l ∈ ls then ls else ls ++ [l]

def updSig (s : Nat) (f : SigSt → SigSt) (st : RState) : RState :=
  { st with sigs := upd st.sigs s (f (st.sigs s)) }

def updComp (c : Nat) (f : CompSt → CompSt) (st : RState) : RState :=
  { st with comps := upd st.comps c (f (st.comps c)) }

def updEff (e : Nat) (f : EffSt → EffSt) (st : RState) : RState :=
  { st with effs := upd st.effs e (f (st.effs e)) }

def updNode (n : Nat) (f : NodeSt → NodeSt) (st : RState) : RState :=
  { st with nodes := upd st.nodes n (f (st.nodes n)) }

/-- `setAttribute`: overwrite in place or append. -/
def setAttrL (k v : String) : List (String × String) → List (String × String)
  | [] => [(k, v)]
  | (k', v') :: rest =>
    if k' = k then (k, v) :: rest else (k', v') :: setAttrL k v rest

/-- `removeAttribute`. -/
def removeAttrL (k : String) (as : List (String × String)) :
    List (String × String) :=
  as.filter (fun p => p.1 != k)

def setAttr (node : Nat) (k v : String) (st : RState) : RState :=
  updNode node (fun n => match n with
    | .elemNode as => .elemNode (setAttrL k v as)
    | t => t) st

def removeAttr (node : Nat) (k : String) (st : RState) : RState :=
  updNode node (fun n => match n with
    | .elemNode as => .elemNode (removeAttrL k as)
    | t => t) st

/-- Interpreter errors: a user exception, or fuel exhaustion (a model
artifact, never a behavior of the source). -/
inductive RErr where
  | thrown
  | fuel
deriving DecidableEq, Repr

deriving instance DecidableEq for Except

/-- Sequencing that threads the state and propagates exceptions,
keeping the mutations made before the throw. -/
def bindR {α β : Type} (x : RState × Except RErr α)
    (f : α → RState → RState × Except RErr β) : RState × Except RErr β :=
  match x with
  | (st, Except.ok a) => f a st
  | (st, Except.error err) => (st, Except.error err)

/-- `if (currentListener) { listeners.add(currentListener) }` for a
signal (src/core/reactivity.ts 94-96). -/
def sigRegister (s : Nat) (st : RState) : RState :=
  match st.curListener with
  | some l => updSig s (fun g => { g with listeners := addIfAbsent l g.listeners }) st
  | none => st

/-- src/core/reactivity.ts 93-98, signal `read`: subscribe the ambient
`currentListener`, if any, then return the value. -/
def sigRead (s : Nat) (st : RState) : RState × Val :=
  ((sigRegister s st), ((sigRegister s st).sigs s).value)

/-- `if (currentListener) { listeners.add(currentListener) }` for a
computed (src/core/reactivity.ts 165-167). -/
def compRegister (c : Nat) (st : RState) : RState :=
  match st.curListener with
  | some l => updComp c (fun g => { g with listeners := addIfAbsent l g.listeners }) st
  | none => st

/-- Entering computed `update` (src/core/reactivity.ts 147-149): save is
the caller's job; install `notifyListeners` as the context, push it on
the stack, and record the body evaluation event. -/
def cuEnter (c : Nat) (st : RState) : RState :=
  addTrace (.compEval c)
    { st with curListener := some (.compNotify c)
            , stack := st.stack ++ [Listener.compNotify c] }

/-- Leaving computed `update` (src/core/reactivity.ts 151-157): on
success store the value and clear staleness; in all cases (`finally`)
pop the stack and restore the saved context `prev`. -/
def cuFinish (c : Nat) (prev : Option Listener) (p : RState × Except RErr Val) :
    RState × Except RErr Unit :=
  let st4 := match p.2 with
    | .ok v => updComp c (fun g => { g with value := v, isStale := false }) p.1
    | .error _ => p.1
  ({ st4 with stack := st4.stack.dropLast, curListener := prev },
   p.2.map (fun _ => ()))

/-- Entering effect `execute` (src/core/reactivity.ts 214-217): set the
re-entrancy guard, install `execute` as the context, push it on the
stack, and record the body run event. -/
def eeEnter (e : Nat) (st : RState) : RState :=
  addTrace (.effRun e)
    { updEff e (fun g => { g with isRunning := true }) st with
        curListener := some (.effExec e)
      , stack := st.stack ++ [Listener.effExec e] }

/-- Leaving effect `execute` (src/core/reactivity.ts 219-225): on
success store the cleanup the body returned (`ret`); in all cases
(`finally`) pop the stack, restore the saved context `prev` and clear
the guard. -/
def eeFinish (e : Nat) (prev : Option Listener) (ret : Option Expr)
    (p : RState × Except RErr Val) : RState × Except RErr Unit :=
  let stF := match p.2 with
    | .ok _ => updEff e (fun g => { g with cleanup := ret }) p.1
    | .error _ => p.1
  (updEff e (fun g => { g with isRunning := false })
     { stF with stack := stF.stack.dropLast, curListener := prev },
   p.2.map (fun _ => ()))

/-- src/core/reactivity.ts 108, signal `peek`. -/
def sigPeek (s : Nat) (st : RState) : Val := (st.sigs s).value

mutual

/-- Evaluate deep-embedded user code.  Each recursive step consumes one
unit of fuel. -/
def evalExpr : Nat → Expr → RState → RState × Except RErr Val
  | 0, _, st => (st, .error .fuel)
  | fuel+1, e, st =>
    match e with
    | .lit v => (st, .ok v)
    | .readSig s => ((sigRead s st).1, .ok (sigRead s st).2)
    | .peekSig s => (st, .ok (sigPeek s st))
    | .readComp c => compRead fuel c st
    | .peekComp c => compPeek fuel c st
    | .writeSig s e1 =>
      bindR (evalExpr fuel e1 st) (fun v st1 => sigWrite fuel s v st1)
    | .seq a b =>
      bindR (evalExpr fuel a st) (fun _ st1 => evalExpr fuel b st1)
    | .mulC k e1 =>
      bindR (evalExpr fuel e1 st) (fun v st1 =>
        (st1, .ok (v.map (fun n => k * n))))
    | .addE a b =>
      bindR (evalExpr fuel a st) (fun va st1 =>
        bindR (evalExpr fuel b st1) (fun vb st2 =>
          (st2, .ok (match va, vb with
            | some x, some y => some (x + y)
            | _, _ => none))))
    | .throwE => (st, .error .thrown)
    | .attrUpd node k e1 =>
      bindR (evalExpr fuel e1 st) (fun v st1 =>
        match v with
        | none => (removeAttr node k st1, .ok none)
        | some n => (setAttr node k (toString n) st1, .ok (some n)))
    | .renderTextInto slot e1 =>
      bindR (evalExpr fuel e1 st) (fun v st1 =>
        match v with
        | none => ({ st1 with slots := upd st1.slots slot [] }, .ok none)
        | some n =>
          ({ st1 with
              nodes := upd st1.nodes st1.nNodes (.textNode (toString n))
            , nNodes := st1.nNodes + 1
            , slots := upd st1.slots slot [st1.nNodes] }, .ok none))
termination_by structural fuel e st => fuel

/-- src/core/reactivity.ts 100-106, signal `write`: strict-equality
short-circuit; otherwise store, notify every listener, and return the
(possibly re-written) current value. -/
def sigWrite (fuel : Nat) (s : Nat) (v : Val) (st : RState) :
    RState × Except RErr Val :=
  if (st.sigs s).value = v then (st, .ok v)
  else
    let st1 := addTrace (.stored s v) (updSig s (fun g => { g with value := v }) st)
    match fuel with
    | 0 => (st1, .error .fuel)
    | fuel+1 =>
      bindR (sigNotifyFrom fuel s 0 st1) (fun _ st2 => (st2, .ok ((st2.sigs s).value)))
termination_by structural fuel

/-- `listeners.forEach(listener => listener())` over the live JS `Set`
of signal `s`, starting at index `i`: sets only grow here, so JS's
live-set iteration is iteration by increasing index, re-reading the set
each step. -/
def sigNotifyFrom : Nat → Nat → Nat → RState → RState × Except RErr Unit
  | 0, _, _, st => (st, .error .fuel)
  | fuel+1, s, i, st =>
    let ls := (st.sigs s).listeners
    if i < ls.length then
      bindR (invokeListener fuel (ls.getD i (.effExec 0))
          (addTrace (.invoked (ls.getD i (.effExec 0))) st))
        (fun _ st1 => sigNotifyFrom fuel s (i+1) st1)
    else (st, .ok ())
termination_by structural fuel s i st => fuel

/-- Call a stored listener closure. -/
def invokeListener : Nat → Listener → RState → RState × Except RErr Unit
  | 0, _, st => (st, .error .fuel)
  | fuel+1, .compNotify c, st => compNotify fuel c st
  | fuel+1, .effExec e, st => effExecute fuel e st
termination_by structural fuel l st => fuel

/-- src/core/reactivity.ts 141-144, computed `notifyListeners`: mark
stale, then notify own listeners.  The body is not evaluated here. -/
def compNotify : Nat → Nat → RState → RState × Except RErr Unit
  | 0, _, st => (st, .error .fuel)
  | fuel+1, c, st =>
    compNotifyFrom fuel c 0 (updComp c (fun g => { g with isStale := true }) st)
termination_by structural fuel c st => fuel

/-- `listeners.forEach(...)` over the live listener set of computed
`c`, starting at index `i`. -/
def compNotifyFrom : Nat → Nat → Nat → RState → RState × Except RErr Unit
  | 0, _, _, st => (st, .error .fuel)
  | fuel+1, c, i, st =>
    let ls := (st.comps c).listeners
    if i < ls.length then
      bindR (invokeListener fuel (ls.getD i (.effExec 0))
          (addTrace (.invoked (ls.getD i (.effExec 0))) st))
        (fun _ st1 => compNotifyFrom fuel c (i+1) st1)
    else (st, .ok ())
termination_by structural fuel c i st => fuel

/-- src/core/reactivity.ts 146-158, computed `update`: save the ambient
context, install `notifyListeners` as context (variable and stack), run
the body; on success store the value and clear staleness; in all cases
(`finally`) pop the stack and restore the saved context. -/
def compUpdate : Nat → Nat → RState → RState × Except RErr Unit
  | 0, _, st => (st, .error .fuel)
  | fuel+1, c, st =>
    cuFinish c st.curListener (evalExpr fuel (st.comps c).body (cuEnter c st))
termination_by structural fuel c st => fuel

/-- src/core/reactivity.ts 160-170, computed `read`: refresh if stale
(exceptions propagate before any subscription), subscribe the ambient
context, return the cached value. -/
def compRead : Nat → Nat → RState → RState × Except RErr Val
  | 0, _, st => (st, .error .fuel)
  | fuel+1, c, st =>
    if (st.comps c).isStale then
      bindR (compUpdate fuel c st) (fun _ st1 =>
        ((compRegister c st1), .ok (((compRegister c st1)).comps c).value))
    else ((compRegister c st), .ok (((compRegister c st)).comps c).value)
termination_by structural fuel c st => fuel

/-- src/core/reactivity.ts 172-177, computed `peek`: refresh if stale,
but never subscribe anyone. -/
def compPeek : Nat → Nat → RState → RState × Except RErr Val
  | 0, _, st => (st, .error .fuel)
  | fuel+1, c, st =>
    if (st.comps c).isStale then
      bindR (compUpdate fuel c st) (fun _ st1 => (st1, .ok ((st1.comps c).value)))
    else (st, .ok ((st.comps c).value))
termination_by structural fuel c st => fuel

/-- src/core/reactivity.ts 206-226, effect `execute`: the re-entrancy
guard is checked before everything (fuel included, so `isRunning`
states short-circuit at any fuel); then run and clear the pending
cleanup; set the guard, install `execute` as context, run the body; on
success store the returned cleanup; in all cases (`finally`) pop the
stack, restore the context and clear the guard. -/
def effExecute (fuel : Nat) (e : Nat) (st : RState) :
    RState × Except RErr Unit :=
  if (st.effs e).isRunning then (st, .ok ())
  else
    match fuel with
    | 0 => (st, .error .fuel)
    | fuel+1 =>
      let runCl : RState × Except RErr Unit :=
        match (st.effs e).cleanup with
        | none => (st, .ok ())
        | some cl =>
          bindR (evalExpr fuel cl (addTrace (.cleanupRun e) st)) (fun _ st1 =>
            (updEff e (fun g => { g with cleanup := none }) st1, .ok ()))
      bindR runCl (fun _ stA =>
        eeFinish e stA.curListener (stA.effs e).ret
          (evalExpr fuel (stA.effs e).body (eeEnter e stA)))
termination_by structural fuel

end

/-- src/core/reactivity.ts 89-119, `signal(initialValue)`: allocate
with an empty listener set; return the new id. -/
def signal (v : Val) (st : RState) : RState × Nat :=
  let s0 : SigSt := { value := v, listeners := [] }
  ({ st with sigs := upd st.sigs st.nSigs s0, nSigs := st.nSigs + 1 }, st.nSigs)

/-- src/core/reactivity.ts 136-182, `computed(fn)`: allocate with
`isStale = true`, an undefined cached value and an empty listener set;
the body is not evaluated at construction. -/
def computed (body : Expr) (st : RState) : RState × Nat :=
  let c0 : CompSt := { value := none, isStale := true, listeners := [], body := body }
  ({ st with comps := upd st.comps st.nComps c0, nComps := st.nComps + 1 }, st.nComps)

/-- src/core/reactivity.ts 202-236, `effect(fn)`: allocate, run
`execute` once immediately, return the new id (standing for the
returned disposer closure). -/
def effect (fuel : Nat) (body : Expr) (ret : Option Expr) (st : RState) :
    (RState × Except RErr Unit) × Nat :=
  let e0 : EffSt := { cleanup := none, isRunning := false, body := body, ret := ret }
  let st1 := { st with effs := upd st.effs st.nEffs e0, nEffs := st.nEffs + 1 }
  (effExecute fuel st.nEffs st1, st.nEffs)

/-- src/core/reactivity.ts 230-235, the disposer returned by `effect`:
run the pending cleanup, if any, and clear it.  Nothing else happens:
no listener-set removal, no kill flag. -/
def effDispose (fuel : Nat) (e : Nat) (st : RState) :
    RState × Except RErr Unit :=
  match (st.effs e).cleanup with
  | none => (st, .ok ())
  | some cl =>
    bindR (evalExpr fuel cl (addTrace (.cleanupRun e) st)) (fun _ st1 =>
      (updEff e (fun g => { g with cleanup := none }) st1, .ok ()))

/-- src/core/reactivity.ts 257-266, `batch(fn)`: save the ambient
context, force it to `null`, run `fn`, restore the context
(`finally`), and pass the result (value or exception) through.  The
listener stack is untouched; notifications are not deferred. -/
def batchRun (fuel : Nat) (body : Expr) (st : RState) :
    RState × Except RErr Val :=
  let p := evalExpr fuel body { st with curListener := none }
  ({ p.1 with curListener := st.curListener }, p.2)

/-! ## Renderer closures (src/core/render.ts) -/

/-- src/core/render.ts 119-126, the `updateAttribute` closure the
renderer wraps in an effect for a signal-valued attribute: read the
signal; `null` removes the attribute, anything else is stored as
`String(val)`. -/
def updateAttribute (node : Nat) (key : String) (sig : Nat) : Expr :=
  .attrUpd node key (.readSig sig)

/-- src/core/render.ts 156-159, the `renderComponent` closure for a
component whose returned virtual tree is a primitive: re-invoke the
component body and overwrite the captured `domNodes` local (a slot)
with the freshly created text node. -/
def renderComponent (slot : Nat) (componentBody : Expr) : Expr :=
  .renderTextInto slot componentBody

/-! ## Top-level driver for concrete scenarios -/

/-- Top-level user actions: evaluate an expression, create a signal /
computed / effect, invoke an effect's disposer, run a batch, create a
detached DOM element node, and mount (`container.innerHTML = ""` then
append the nodes the renderer collected in a slot,
src/core/render.ts 174-178). -/
inductive Cmd where
  | cexpr (e : Expr)
  | mkSig (v : Val)
  | mkComp (body : Expr)
  | mkEff (body : Expr) (ret : Option Expr)
  | disposeEff (e : Nat)
  | cbatch (e : Expr)
  | mkElemNode (attrs : List (String × String))
  | mount (slot : Nat)
deriving DecidableEq, Repr

def runCmd (fuel : Nat) (c : Cmd) (st : RState) : RState × Except RErr Unit :=
  match c with
  | .cexpr e => bindR (evalExpr fuel e st) (fun _ st1 => (st1, .ok ()))
  | .mkSig v => ((signal v st).1, .ok ())
  | .mkComp b => ((computed b st).1, .ok ())
  | .mkEff b ret => (effect fuel b ret st).1
  | .disposeEff e => effDispose fuel e st
  | .cbatch e => bindR (batchRun fuel e st) (fun _ st1 => (st1, .ok ()))
  | .mkElemNode as =>
    ({ st with nodes := upd st.nodes st.nNodes (.elemNode as)
             , nNodes := st.nNodes + 1 }, .ok ())
  | .mount slot => ({ st with container := st.slots slot }, .ok ())

def runCmds (fuel : Nat) : List Cmd → RState → RState × Except RErr Unit
  | [], st => (st, .ok ())
  | c :: cs, st => bindR (runCmd fuel c st) (fun _ st1 => runCmds fuel cs st1)

/-- Occurrences of an event in a trace. -/
def countEv (ev : Ev) : List Ev → Nat
  | [] => 0
  | x :: xs => (if x = ev then 1 else 0) + countEv ev xs

/-! ## Invariants -/

/-- State relation established by every complete interpreter call: the
tracking context and its stack are restored, listener sets only grow
(the old set is a prefix of the new one — nothing in the source ever
removes a listener), and the trace only grows. -/
structure Inv (st st' : RState) : Prop where
  cur : st'.curListener = st.curListener
  stk : st'.stack = st.stack
  sig : ∀ s, (st.sigs s).listeners <+: (st'.sigs s).listeners
  cmp : ∀ c, (st.comps c).listeners <+: (st'.comps c).listeners
  tr : st.trace <+: st'.trace

/-- Listener `l` is subscribed nowhere. -/
def NotSub (l : Listener) (st : RState) : Prop :=
  (∀ s, l ∉ (st.sigs s).listeners) ∧ (∀ c, l ∉ (st.comps c).listeners)

/-- Every listener registered on any computed is itself a computed's
notify callback: a pure computed chain, with no effect subscribed
anywhere downstream. -/
def compChainOnly (st : RState) : Prop :=
  ∀ c l, l ∈ (st.comps c).listeners → ∃ c', l = Listener.compNotify c'

/-- The batch-shield predicate (C5): the ambient context is not effect
`eid`'s `execute`, and that closure is subscribed nowhere. -/
def EffShield (eid : Nat) (st : RState) : Prop :=
  st.curListener ≠ some (.effExec eid) ∧ NotSub (.effExec eid) st

/-- What a pure stale-propagation pass may do to the state: computed
values, bodies and listener sets are untouched (no recomputation),
staleness only moves towards `true`, signals and effects are untouched,
context and stack are restored, and every new trace event is a listener
invocation (in particular no `compEval`, `effRun` or `cleanupRun`). -/
structure StalePass (st st' : RState) : Prop where
  val : ∀ c, (st'.comps c).value = (st.comps c).value
  lis : ∀ c, (st'.comps c).listeners = (st.comps c).listeners
  bdy : ∀ c, (st'.comps c).body = (st.comps c).body
  stm : ∀ c, (st.comps c).isStale = true → (st'.comps c).isStale = true
  sg : st'.sigs = st.sigs
  ef : st'.effs = st.effs
  cur : st'.curListener = st.curListener
  stk : st'.stack = st.stack
  tr : st.trace <+: st'.trace
  ev : ∀ x ∈ st'.trace.drop st.trace.length, ∃ l, x = Ev.invoked l

/-! ## Concrete scenarios -/

/-- C1: `count = signal(5)`; an element node; the renderer's attribute
effect `effect(() => el.setAttribute("id", String(count())))`; the
disposer returned by `effect` (which `render`'s dispose-all would
invoke); then `count(7)` after disposal. -/
def c1Cmds : List Cmd :=
  [ .mkSig (some 5)
  , .mkElemNode []
  , .mkEff (updateAttribute 0 "id" 0) none
  , .disposeEff 0
  , .cexpr (.writeSig 0 (.lit (some 7))) ]

/-- C1: the state just after disposal, before the write. -/
def c1Pre : RState := (runCmds 20 (c1Cmds.take 4) initState).1

def c1Run : RState × Except RErr Unit := runCmds 20 c1Cmds initState

/-- C2: `count = signal(1)`; a component rendering `count` as a text
node, wrapped in the renderer's component effect; the initial mount;
then `count(2)`. -/
def c2Cmds : List Cmd :=
  [ .mkSig (some 1)
  , .mkEff (renderComponent 0 (.readSig 0)) none
  , .mount 0
  , .cexpr (.writeSig 0 (.lit (some 2))) ]

def c2Run : RState × Except RErr Unit := runCmds 20 c2Cmds initState

/-- C3 witness state: a signal holding `0` with one subscribed effect. -/
def c3St : RState :=
  (runCmds 30 [ .mkSig (some 0), .mkEff (.seq (.readSig 0) (.lit none)) none ]
    initState).1

/-- C4 witness state: a computed whose body throws, with a nonempty
ambient context. -/
def c4St : RState :=
  { initState with
    comps := upd initState.comps 0
      ({ value := none, isStale := true, listeners := [], body := .throwE })
  , nComps := 1
  , curListener := some (.effExec 3)
  , stack := [.effExec 3] }

/-- C5: an effect subscribed to `s0`, then a batch whose body writes
`s0`: the subscriber must run during the batch. -/
def c5Cmds : List Cmd :=
  [ .mkSig (some 0)
  , .mkEff (.seq (.readSig 0) (.lit none)) none
  , .cbatch (.writeSig 0 (.lit (some 1))) ]

def c5Run : RState × Except RErr Unit := runCmds 30 c5Cmds initState

/-- C5 witness state: the ambient context is an effect that is
subscribed nowhere. -/
def c5St : RState :=
  { initState with curListener := some (.effExec 7), nSigs := 1 }

/-- C6: `count = signal(2)`; `doubled = computed(() => count() * 2)`. -/
def c6St0 : RState :=
  (runCmds 20 [ .mkSig (some 2), .mkComp (.mulC 2 (.readSig 0)) ] initState).1

def c6R1 : RState × Except RErr Val := compRead 20 0 c6St0
def c6R2 : RState × Except RErr Val := compRead 20 0 c6R1.1
def c6St1 : RState := (evalExpr 20 (.writeSig 0 (.lit (some 3))) c6R2.1).1
def c6R3 : RState × Except RErr Val := compRead 20 0 c6St1
def c6R4 : RState × Except RErr Val := compRead 20 0 c6R3.1

/-- C7 witness state: `s0 = signal(1)`, `c0 = computed(() => s0() * 2)`,
`c1 = computed(() => c0() * 2)`, both already evaluated (the state
produced by reading `c1` once at top level): `s0`'s set holds
`c0.notifyListeners`, `c0`'s set holds `c1.notifyListeners`, `c1`'s set
is empty — a pure computed chain. -/
def stC7 : RState :=
  { initState with
    nSigs := 1
  , sigs := upd initState.sigs 0
      ({ value := some 1, listeners := [Listener.compNotify 0] })
  , nComps := 2
  , comps := upd (upd initState.comps 0
      ({ value := some 2, isStale := false, listeners := [Listener.compNotify 1]
       , body := .mulC 2 (.readSig 0) })) 1
      ({ value := some 4, isStale := false, listeners := []
       , body := .mulC 2 (.readComp 0) }) }

/-- C8: an effect whose body writes the signal it reads (a synchronous
cycle), then an external write. -/
def c8Cmds : List Cmd :=
  [ .mkSig (some 0)
  , .mkEff (.seq (.readSig 0) (.writeSig 0 (.lit (some 1)))) none
  , .cexpr (.writeSig 0 (.lit (some 5))) ]

def c8Run : RState × Except RErr Unit := runCmds 30 c8Cmds initState

/-- C8 witness state: an effect whose re-entrancy guard is set. -/
def c8Busy : RState :=
  { initState with
    effs := upd initState.effs 0
      ({ cleanup := none, isRunning := true, body := .lit none, ret := none })
  , nEffs := 1 }

/-! ## Basic lemmas about `Inv` -/

theorem invRefl (st : RState) : Inv st st :=
  ⟨rfl, rfl, fun _ => List.prefix_rfl, fun _ => List.prefix_rfl, List.prefix_rfl⟩

theorem invTrans {a b c : RState} (h1 : Inv a b) (h2 : Inv b c) : Inv a c :=
  ⟨h2.cur.trans h1.cur, h2.stk.trans h1.stk,
   fun s => (h1.sig s).trans (h2.sig s),
   fun x => (h1.cmp x).trans (h2.cmp x),
   h1.tr.trans h2.tr⟩

/-- `Inv` for a state change that leaves every `Inv`-relevant field
untouched (only effects, DOM, slots or counters change). -/
theorem invOfFields {st st' : RState} (h1 : st'.curListener = st.curListener)
    (h2 : st'.stack = st.stack) (h3 : st'.sigs = st.sigs)
    (h4 : st'.comps = st.comps) (h5 : st'.trace = st.trace) : Inv st st' :=
  ⟨h1, h2, fun s => h3 ▸ List.prefix_rfl, fun c => h4 ▸ List.prefix_rfl,
   h5 ▸ List.prefix_rfl⟩

theorem invAddTrace (ev : Ev) (st : RState) : Inv st (addTrace ev st) :=
  ⟨rfl, rfl, fun _ => List.prefix_rfl, fun _ => List.prefix_rfl,
   List.prefix_append _ _⟩

theorem prefixAddIfAbsent (l : Listener) (ls : List Listener) :
    ls <+: addIfAbsent l ls := by
  unfold addIfAbsent
  split
  · exact List.prefix_rfl
  · exact List.prefix_append _ _

theorem invUpdSig {st : RState} (s : Nat) (f : SigSt → SigSt)
    (hf : (st.sigs s).listeners <+: (f (st.sigs s)).listeners) :
    Inv st (updSig s f st) := by
  refine ⟨rfl, rfl, ?_, fun _ => List.prefix_rfl, List.prefix_rfl⟩
  intro j
  by_cases hj : j = s
  · subst hj; simpa [updSig, upd] using hf
  · simp [updSig, upd, hj]

theorem invUpdComp {st : RState} (c : Nat) (f : CompSt → CompSt)
    (hf : (st.comps c).listeners <+: (f (st.comps c)).listeners) :
    Inv st (updComp c f st) := by
  refine ⟨rfl, rfl, fun _ => List.prefix_rfl, ?_, List.prefix_rfl⟩
  intro j
  by_cases hj : j = c
  · subst hj; simpa [updComp, upd] using hf
  · simp [updComp, upd, hj]

theorem invUpdEff {st : RState} (e : Nat) (f : EffSt → EffSt) :
    Inv st (updEff e f st) :=
  invOfFields rfl rfl rfl rfl rfl

theorem invUpdNode {st : RState} (n : Nat) (f : NodeSt → NodeSt) :
    Inv st (updNode n f st) :=
  invOfFields rfl rfl rfl rfl rfl

theorem invSigRegister (s : Nat) (st : RState) : Inv st (sigRegister s st) := by
  unfold sigRegister
  cases st.curListener with
  | none => exact invRefl st
  | some l =>
    exact invUpdSig s (fun g => { g with listeners := addIfAbsent l g.listeners })
      (prefixAddIfAbsent l _)

theorem invCompRegister (c : Nat) (st : RState) : Inv st (compRegister c st) := by
  unfold compRegister
  cases st.curListener with
  | none => exact invRefl st
  | some l =>
    exact invUpdComp c (fun g => { g with listeners := addIfAbsent l g.listeners })
      (prefixAddIfAbsent l _)

theorem invBindR {α β : Type} (x : RState × Except RErr α)
    (f : α → RState → RState × Except RErr β) {st : RState}
    (hx : Inv st x.1) (hf : ∀ a st1, Inv st1 (f a st1).1) :
    Inv st (bindR x f).1 := by
  rcases x with ⟨st1, r⟩
  cases r with
  | ok a => exact invTrans hx (hf a st1)
  | error e => exact hx

theorem invCuFinish {st : RState} (c : Nat) (p : RState × Except RErr Val)
    (hp : Inv (cuEnter c st) p.1) :
    Inv st (cuFinish c st.curListener p).1 := by
  rcases p with ⟨st3, r⟩
  have hstk : st3.stack = st.stack ++ [Listener.compNotify c] := by
    simpa [cuEnter, addTrace] using hp.stk
  have hsig : ∀ s, (st.sigs s).listeners <+: (st3.sigs s).listeners := by
    intro s; simpa [cuEnter, addTrace] using hp.sig s
  have hcmp : ∀ x, (st.comps x).listeners <+: (st3.comps x).listeners := by
    intro x; simpa [cuEnter, addTrace] using hp.cmp x
  have htr : st.trace <+: st3.trace := by
    refine List.IsPrefix.trans ?_ hp.tr
    simp [cuEnter, addTrace]
  cases r with
  | ok v =>
    simp only [cuFinish]
    refine ⟨rfl, ?_, ?_, ?_, ?_⟩
    · simp [updComp, hstk]
    · intro s; exact hsig s
    · intro x
      simp only [updComp, upd]
      by_cases hx : x = c
      · subst hx; simpa using hcmp x
      · simpa [hx] using hcmp x
    · exact htr
  | error err =>
    simp only [cuFinish]
    exact ⟨rfl, by simp [hstk], hsig, hcmp, htr⟩

theorem invEeFinish {stA : RState} (e : Nat) (ret : Option Expr)
    (p : RState × Except RErr Val) (hp : Inv (eeEnter e stA) p.1) :
    Inv stA (eeFinish e stA.curListener ret p).1 := by
  rcases p with ⟨st3, r⟩
  have hstk : st3.stack = stA.stack ++ [Listener.effExec e] := by
    simpa [eeEnter, addTrace, updEff] using hp.stk
  have hsig : ∀ s, (stA.sigs s).listeners <+: (st3.sigs s).listeners := by
    intro s; simpa [eeEnter, addTrace, updEff] using hp.sig s
  have hcmp : ∀ x, (stA.comps x).listeners <+: (st3.comps x).listeners := by
    intro x; simpa [eeEnter, addTrace, updEff] using hp.cmp x
  have htr : stA.trace <+: st3.trace := by
    refine List.IsPrefix.trans ?_ hp.tr
    simp [eeEnter, addTrace, updEff]
  cases r with
  | ok v =>
    simp only [eeFinish]
    refine ⟨rfl, ?_, ?_, ?_, ?_⟩
    · simp [updEff, hstk]
    · intro s; exact hsig s
    · intro x; exact hcmp x
    · exact htr
  | error err =>
    simp only [eeFinish]
    refine ⟨rfl, ?_, ?_, ?_, ?_⟩
    · simp [updEff, hstk]
    · intro s; exact hsig s
    · intro x; exact hcmp x
    · exact htr

/-- Every complete interpreter call restores the tracking context and
the listener stack, only grows listener sets, and only appends to the
trace — for any fuel, any arguments, any state, whether the call
returns normally, throws, or runs out of fuel. -/
theorem preserveAll : ∀ fuel : Nat,
    (∀ e st, Inv st (evalExpr fuel e st).1) ∧
    (∀ s v st, Inv st (sigWrite fuel s v st).1) ∧
    (∀ s i st, Inv st (sigNotifyFrom fuel s i st).1) ∧
    (∀ l st, Inv st (invokeListener fuel l st).1) ∧
    (∀ c st, Inv st (compNotify fuel c st).1) ∧
    (∀ c i st, Inv st (compNotifyFrom fuel c i st).1) ∧
    (∀ c st, Inv st (compUpdate fuel c st).1) ∧
    (∀ c st, Inv st (compRead fuel c st).1) ∧
    (∀ c st, Inv st (compPeek fuel c st).1) ∧
    (∀ e st, Inv st (effExecute fuel e st).1) := by
  have hw0 : ∀ s (v : Val) st, Inv st (sigWrite 0 s v st).1 := by
    intro s v st
    unfold sigWrite
    split
    · exact invRefl st
    · exact invTrans
        (invUpdSig s (fun g => { g with value := v }) List.prefix_rfl)
        (invAddTrace _ _)
  intro fuel
  induction fuel with
  | zero =>
    refine ⟨fun e st => invRefl st, hw0, fun s i st => invRefl st,
      fun l st => invRefl st, fun c st => invRefl st, fun c i st => invRefl st,
      fun c st => invRefl st, fun c st => invRefl st, fun c st => invRefl st, ?_⟩
    intro e st
    unfold effExecute
    split
    · exact invRefl st
    · exact invRefl st
  | succ n ih =>
    obtain ⟨ihE, ihW, ihSN, ihIL, ihCN, ihCNF, ihCU, ihCR, ihCP, ihEE⟩ := ih
    have hSN1 : ∀ s i st, Inv st (sigNotifyFrom (n+1) s i st).1 := by
      intro s i st
      simp only [sigNotifyFrom]
      split
      · exact invBindR _ _
          (invTrans (invAddTrace _ _) (ihIL _ _)) (fun _ st1 => ihSN _ _ _)
      · exact invRefl st
    have hCNF1 : ∀ c i st, Inv st (compNotifyFrom (n+1) c i st).1 := by
      intro c i st
      simp only [compNotifyFrom]
      split
      · exact invBindR _ _
          (invTrans (invAddTrace _ _) (ihIL _ _)) (fun _ st1 => ihCNF _ _ _)
      · exact invRefl st
    have hCN1 : ∀ c st, Inv st (compNotify (n+1) c st).1 := by
      intro c st
      simp only [compNotify]
      exact invTrans
        (invUpdComp c (fun g => { g with isStale := true }) List.prefix_rfl)
        (ihCNF _ _ _)
    have hW1 : ∀ s v st, Inv st (sigWrite (n+1) s v st).1 := by
      intro s v st
      unfold sigWrite
      split
      · exact invRefl st
      · exact invTrans
          (invTrans (invUpdSig s (fun g => { g with value := v }) List.prefix_rfl)
            (invAddTrace _ _))
          (invBindR _ _ (ihSN s 0 _) (fun _ st2 => invRefl st2))
    have hCU1 : ∀ c st, Inv st (compUpdate (n+1) c st).1 := by
      intro c st
      simp only [compUpdate]
      exact invCuFinish c _ (ihE _ _)
    have hCR1 : ∀ c st, Inv st (compRead (n+1) c st).1 := by
      intro c st
      simp only [compRead]
      split
      · exact invBindR _ _ (ihCU c st) (fun _ st1 => invCompRegister c st1)
      · exact invCompRegister c st
    have hCP1 : ∀ c st, Inv st (compPeek (n+1) c st).1 := by
      intro c st
      simp only [compPeek]
      split
      · exact invBindR _ _ (ihCU c st) (fun _ st1 => invRefl st1)
      · exact invRefl st
    have hEE1 : ∀ e st, Inv st (effExecute (n+1) e st).1 := by
      intro e st
      unfold effExecute
      split
      · exact invRefl st
      · refine invBindR _ _ ?_ (fun a stA => invEeFinish e _ _ (ihE _ _))
        cases hcl : (st.effs e).cleanup with
        | none => exact invRefl st
        | some cl =>
          exact invBindR _ _ (invTrans (invAddTrace _ _) (ihE _ _))
            (fun _ st1 =>
              invUpdEff e (fun g => { g with cleanup := none }))
    have hIL1 : ∀ l st, Inv st (invokeListener (n+1) l st).1 := by
      intro l st
      cases l with
      | compNotify c => exact ihCN c st
      | effExec e => exact ihEE e st
    have hE1 : ∀ e st, Inv st (evalExpr (n+1) e st).1 := by
      intro e st
      cases e with
      | lit v => exact invRefl st
      | readSig s => exact invSigRegister s st
      | peekSig s => exact invRefl st
      | readComp c => exact ihCR c st
      | peekComp c => exact ihCP c st
      | writeSig s e1 =>
        exact invBindR _ _ (ihE e1 st) (fun v st1 => ihW s v st1)
      | seq a b =>
        exact invBindR _ _ (ihE a st) (fun _ st1 => ihE b st1)
      | mulC k e1 =>
        exact invBindR _ _ (ihE e1 st) (fun v st1 => invRefl st1)
      | addE a b =>
        exact invBindR _ _ (ihE a st) (fun va st1 =>
          invBindR _ _ (ihE b st1) (fun vb st2 => invRefl st2))
      | throwE => exact invRefl st
      | attrUpd node k e1 =>
        refine invBindR _ _ (ihE e1 st) (fun v st1 => ?_)
        cases v with
        | none =>
          show Inv st1 (removeAttr node k st1)
          exact invUpdNode node _
        | some m =>
          show Inv st1 (setAttr node k (toString m) st1)
          exact invUpdNode node _
      | renderTextInto slot e1 =>
        refine invBindR _ _ (ihE e1 st) (fun v st1 => ?_)
        cases v with
        | none => exact invOfFields rfl rfl rfl rfl rfl
        | some m => exact invOfFields rfl rfl rfl rfl rfl
    exact ⟨hE1, hW1, hSN1, hIL1, hCN1, hCNF1, hCU1, hCR1, hCP1, hEE1⟩

/-! ## List helpers for trace and listener-set reasoning -/

theorem getDMem {α : Type} (l : List α) (d : α) : ∀ {n : Nat}, n < l.length →
    l.getD n d ∈ l := by
  induction l with
  | nil => intro n h; simp at h
  | cons x xs ih =>
    intro n h
    cases n with
    | zero => simp
    | succ m =>
      rw [List.getD_cons_succ]
      exact List.mem_cons_of_mem x (ih (by simpa using h))

theorem getDStable {α : Type} {l1 l2 : List α} (h : l1 <+: l2) {j : Nat}
    (hj : j < l1.length) (d : α) : l2.getD j d = l1.getD j d := by
  obtain ⟨t, rfl⟩ := h
  exact List.getD_append _ _ _ _ hj

theorem memDropMono {α : Type} {t : List α} {m n : Nat} (h : n ≤ m) {x : α}
    (hx : x ∈ t.drop m) : x ∈ t.drop n := by
  have he : t.drop m = (t.drop n).drop (m - n) := by
    rw [List.drop_drop]
    congr 1
    omega
  rw [he] at hx
  exact List.drop_subset _ _ hx

theorem memDropExtend {α : Type} {a b : List α} (h : a <+: b) (k : Nat) {x : α}
    (hx : x ∈ a.drop k) : x ∈ b.drop k := by
  obtain ⟨t, rfl⟩ := h
  by_cases hk : k ≤ a.length
  · rw [List.drop_append_of_le_length hk]
    exact List.mem_append_left _ hx
  · rw [List.drop_eq_nil_of_le (by omega)] at hx
    cases hx

/-! ## Notification coverage: every listener present at notification
start is invoked, and the invocation is recorded after the start of the
loop -/

/-- If a signal's live-set notification loop starting at index `i`
completes normally, then every listener at index `i` or later of the
set as it stood at loop entry gets an `invoked` event recorded among
the events appended by the loop. -/
theorem sigNotifyCoverage : ∀ fuel s i st st2,
    sigNotifyFrom fuel s i st = (st2, Except.ok ()) →
    ∀ j, i ≤ j → j < (st.sigs s).listeners.length →
      Ev.invoked ((st.sigs s).listeners.getD j (.effExec 0)) ∈
        st2.trace.drop st.trace.length := by
  intro fuel
  induction fuel with
  | zero =>
    intro s i st st2 h
    simp [sigNotifyFrom, Prod.ext_iff] at h
  | succ n ih =>
    intro s i st st2 h j hij hj
    rw [sigNotifyFrom] at h
    by_cases hi : i < (st.sigs s).listeners.length
    swap
    · omega
    rw [if_pos hi] at h
    rcases hq : invokeListener n ((st.sigs s).listeners.getD i (.effExec 0))
        (addTrace (.invoked ((st.sigs s).listeners.getD i (.effExec 0))) st)
      with ⟨stm, r⟩
    rw [hq] at h
    have hInv : Inv (addTrace (.invoked ((st.sigs s).listeners.getD i (.effExec 0))) st) stm := by
      have hh := (preserveAll n).2.2.2.1 ((st.sigs s).listeners.getD i (.effExec 0))
        (addTrace (.invoked ((st.sigs s).listeners.getD i (.effExec 0))) st)
      rw [hq] at hh
      exact hh
    cases r with
    | error err => simp [bindR, Prod.ext_iff] at h
    | ok a =>
      have hrec : sigNotifyFrom n s (i+1) stm = (st2, Except.ok ()) := h
      have hInv2 : Inv stm st2 := by
        have hh := (preserveAll n).2.2.1 s (i+1) stm
        rw [hrec] at hh
        exact hh
      rcases Nat.lt_or_ge i j with hij' | hij'
      · -- j > i : use the induction hypothesis on the recursive call
        have hpre : (st.sigs s).listeners <+: (stm.sigs s).listeners := by
          have := hInv.sig s
          simpa [addTrace] using this
        have hjm : j < (stm.sigs s).listeners.length :=
          Nat.lt_of_lt_of_le hj hpre.length_le
        have hcov := ih s (i+1) stm st2 hrec j hij' hjm
        rw [getDStable hpre hj] at hcov
        have hlen : st.trace.length ≤ stm.trace.length := by
          refine Nat.le_trans ?_ hInv.tr.length_le
          simp only [addTrace, List.length_append, List.length_cons, List.length_nil]
          omega
        exact memDropMono hlen hcov
      · -- j = i : the invoked event was appended right here
        have hji : j = i := by omega
        subst hji
        have hmem : Ev.invoked ((st.sigs s).listeners.getD j (.effExec 0)) ∈
            (addTrace (.invoked ((st.sigs s).listeners.getD j (.effExec 0))) st).trace.drop
              st.trace.length := by
          simp [addTrace]
        exact memDropExtend (hInv.tr.trans hInv2.tr) _ hmem

/-- The comp-set analogue of `sigNotifyCoverage`. -/
theorem compNotifyCoverage : ∀ fuel c i st st2,
    compNotifyFrom fuel c i st = (st2, Except.ok ()) →
    ∀ j, i ≤ j → j < (st.comps c).listeners.length →
      Ev.invoked ((st.comps c).listeners.getD j (.effExec 0)) ∈
        st2.trace.drop st.trace.length := by
  intro fuel
  induction fuel with
  | zero =>
    intro c i st st2 h
    simp [compNotifyFrom, Prod.ext_iff] at h
  | succ n ih =>
    intro c i st st2 h j hij hj
    rw [compNotifyFrom] at h
    by_cases hi : i < (st.comps c).listeners.length
    swap
    · omega
    rw [if_pos hi] at h
    rcases hq : invokeListener n ((st.comps c).listeners.getD i (.effExec 0))
        (addTrace (.invoked ((st.comps c).listeners.getD i (.effExec 0))) st)
      with ⟨stm, r⟩
    rw [hq] at h
    have hInv : Inv (addTrace (.invoked ((st.comps c).listeners.getD i (.effExec 0))) st) stm := by
      have hh := (preserveAll n).2.2.2.1 ((st.comps c).listeners.getD i (.effExec 0))
        (addTrace (.invoked ((st.comps c).listeners.getD i (.effExec 0))) st)
      rw [hq] at hh
      exact hh
    cases r with
    | error err => simp [bindR, Prod.ext_iff] at h
    | ok a =>
      have hrec : compNotifyFrom n c (i+1) stm = (st2, Except.ok ()) := h
      have hInv2 : Inv stm st2 := by
        have hh := (preserveAll n).2.2.2.2.2.1 c (i+1) stm
        rw [hrec] at hh
        exact hh
      rcases Nat.lt_or_ge i j with hij' | hij'
      · have hpre : (st.comps c).listeners <+: (stm.comps c).listeners := by
          have := hInv.cmp c
          simpa [addTrace] using this
        have hjm : j < (stm.comps c).listeners.length :=
          Nat.lt_of_lt_of_le hj hpre.length_le
        have hcov := ih c (i+1) stm st2 hrec j hij' hjm
        rw [getDStable hpre hj] at hcov
        have hlen : st.trace.length ≤ stm.trace.length := by
          refine Nat.le_trans ?_ hInv.tr.length_le
          simp only [addTrace, List.length_append, List.length_cons, List.length_nil]
          omega
        exact memDropMono hlen hcov
      · have hji : j = i := by omega
        subst hji
        have hmem : Ev.invoked ((st.comps c).listeners.getD j (.effExec 0)) ∈
            (addTrace (.invoked ((st.comps c).listeners.getD j (.effExec 0))) st).trace.drop
              st.trace.length := by
          simp [addTrace]
        exact memDropExtend (hInv.tr.trans hInv2.tr) _ hmem

/-! ## C3: signal write semantics -/

/-- C3: for every signal `s` and value `v`: if `v` is strictly equal
(`!==`-equal) to the current value, `write(v)` is a complete no-op —
the state (hence every subscriber and every DOM node) is untouched, no
subscriber is invoked, and the value is returned.  If `v` differs, the
store is recorded first (`Ev.stored s v`); provided the call returns
normally, every listener subscribed at call time has its invocation
recorded among the events appended after the store — every
subscriber's notify callback runs synchronously before `write`
returns — and the value returned is the signal's current value at
return time. -/
theorem signal_write_spec (fuel s : Nat) (v : Val) (st : RState) :
    ((st.sigs s).value = v → sigWrite fuel s v st = (st, Except.ok v)) ∧
    ((st.sigs s).value ≠ v →
      (sigWrite fuel s v st).1.trace
        = st.trace ++ Ev.stored s v
            :: ((sigWrite fuel s v st).1.trace.drop (st.trace.length + 1)) ∧
      (∀ l ∈ (st.sigs s).listeners, (∃ u, (sigWrite fuel s v st).2 = Except.ok u) →
        Ev.invoked l ∈ (sigWrite fuel s v st).1.trace.drop (st.trace.length + 1)) ∧
      (∀ u, (sigWrite fuel s v st).2 = Except.ok u →
        u = ((sigWrite fuel s v st).1.sigs s).value)) := by
  constructor
  · intro he
    unfold sigWrite
    rw [if_pos he]
  · intro hne
    cases fuel with
    | zero =>
      have heq : sigWrite 0 s v st
          = (addTrace (.stored s v) (updSig s (fun g => { g with value := v }) st),
             Except.error .fuel) := by
        unfold sigWrite
        rw [if_neg hne]
      rw [heq]
      refine ⟨?_, ?_, ?_⟩
      · simp [addTrace, updSig]
      · intro l hl hex
        simp at hex
      · intro u hu
        simp at hu
    | succ n =>
      have heq : sigWrite (n+1) s v st
          = bindR (sigNotifyFrom n s 0
              (addTrace (.stored s v) (updSig s (fun g => { g with value := v }) st)))
              (fun _ st2 => (st2, Except.ok ((st2.sigs s).value))) := by
        unfold sigWrite
        rw [if_neg hne]
      rcases hq : sigNotifyFrom n s 0
          (addTrace (.stored s v) (updSig s (fun g => { g with value := v }) st))
        with ⟨st2, r⟩
      have hInv : Inv (addTrace (.stored s v)
          (updSig s (fun g => { g with value := v }) st)) st2 := by
        have hh := (preserveAll n).2.2.1 s 0
          (addTrace (.stored s v) (updSig s (fun g => { g with value := v }) st))
        rw [hq] at hh
        exact hh
      obtain ⟨t, ht⟩ := hInv.tr
      have htr2 : st2.trace = st.trace ++ Ev.stored s v :: t := by
        rw [← ht]
        simp [addTrace, updSig]
      have hdrop : st2.trace.drop (st.trace.length + 1) = t := by
        rw [htr2]
        have hass : st.trace ++ Ev.stored s v :: t
            = (st.trace ++ [Ev.stored s v]) ++ t := by simp
        rw [hass]
        have hlen : (st.trace ++ [Ev.stored s v]).length = st.trace.length + 1 := by
          simp
        rw [← hlen, List.drop_left]
      rw [heq, hq]
      cases r with
      | error err =>
        refine ⟨?_, ?_, ?_⟩
        · show st2.trace
            = st.trace ++ Ev.stored s v :: (st2.trace.drop (st.trace.length + 1))
          rw [hdrop]
          exact htr2
        · intro l hl hex
          rcases hex with ⟨u, hu⟩
          simp [bindR] at hu
        · intro u hu
          simp [bindR] at hu
      | ok a =>
        refine ⟨?_, ?_, ?_⟩
        · show st2.trace
            = st.trace ++ Ev.stored s v :: (st2.trace.drop (st.trace.length + 1))
          rw [hdrop]
          exact htr2
        · intro l hl hex
          show Ev.invoked l ∈ st2.trace.drop (st.trace.length + 1)
          cases a
          obtain ⟨j, hj, hget⟩ := List.mem_iff_getElem.mp hl
          have hls : ((addTrace (.stored s v)
              (updSig s (fun g => { g with value := v }) st)).sigs s).listeners
              = (st.sigs s).listeners := by
            simp [addTrace, updSig, upd]
          have hcov := sigNotifyCoverage n s 0
            (addTrace (.stored s v) (updSig s (fun g => { g with value := v }) st))
            st2 hq j (Nat.zero_le j) (by rw [hls]; exact hj)
          rw [hls] at hcov
          rw [List.getD_eq_getElem _ _ hj, hget] at hcov
          have hlen1 : (addTrace (.stored s v)
              (updSig s (fun g => { g with value := v }) st)).trace.length
              = st.trace.length + 1 := by
            simp [addTrace, updSig]
          rw [hlen1] at hcov
          exact hcov
        · intro u hu
          have : Except.ok ((st2.sigs s).value) = Except.ok u := hu
          have hu2 : (st2.sigs s).value = u := by
            injection this
          show u = (st2.sigs s).value
          exact hu2.symm

/-- C3 witness: `c3St` holds a signal with value `0` and one subscribed
effect; writing `5` is a real change, the effect's invocation is
recorded after the store, and the write succeeds. -/
theorem signal_write_spec_witness :
    (c3St.sigs 0).value ≠ some 5 ∧
    Listener.effExec 0 ∈ (c3St.sigs 0).listeners ∧
    Ev.invoked (.effExec 0)
      ∈ (sigWrite 10 0 (some 5) c3St).1.trace.drop (c3St.trace.length + 1) ∧
    (sigWrite 10 0 (some 5) c3St).1.trace
      = c3St.trace ++ Ev.stored 0 (some 5)
          :: ((sigWrite 10 0 (some 5) c3St).1.trace.drop (c3St.trace.length + 1)) := by
  refine ⟨by decide, by decide, ?_, ?_⟩
  · exact ((signal_write_spec 10 0 (some 5) c3St).2 (by decide)).2.1
      (.effExec 0) (by decide) ⟨some 5, by decide⟩
  · exact ((signal_write_spec 10 0 (some 5) c3St).2 (by decide)).1

/-! ## C4: tracking-context restoration -/

/-- C4: computed `update` and effect `execute` always leave the
tracking context and the context stack exactly as they found them — on
normal completion, when the body throws, and even if the model's fuel
runs out — so a throw inside one computation never changes which
tracking context subsequent unrelated reads observe.  The last clause
makes the throwing case explicit: a computed whose body throws
propagates the exception while still restoring context and stack. -/
theorem tracking_context_restored :
    (∀ fuel c (st : RState),
      (compUpdate fuel c st).1.curListener = st.curListener ∧
      (compUpdate fuel c st).1.stack = st.stack) ∧
    (∀ fuel e (st : RState),
      (effExecute fuel e st).1.curListener = st.curListener ∧
      (effExecute fuel e st).1.stack = st.stack) ∧
    (∀ fuel c (st : RState), (st.comps c).body = .throwE →
      (compUpdate (fuel+2) c st).2 = Except.error .thrown ∧
      (compUpdate (fuel+2) c st).1.curListener = st.curListener ∧
      (compUpdate (fuel+2) c st).1.stack = st.stack) := by
  refine ⟨?_, ?_, ?_⟩
  · intro fuel c st
    exact ⟨((preserveAll fuel).2.2.2.2.2.2.1 c st).cur,
           ((preserveAll fuel).2.2.2.2.2.2.1 c st).stk⟩
  · intro fuel e st
    exact ⟨((preserveAll fuel).2.2.2.2.2.2.2.2.2 e st).cur,
           ((preserveAll fuel).2.2.2.2.2.2.2.2.2 e st).stk⟩
  · intro fuel c st hb
    refine ⟨?_, ((preserveAll (fuel+2)).2.2.2.2.2.2.1 c st).cur,
      ((preserveAll (fuel+2)).2.2.2.2.2.2.1 c st).stk⟩
    simp only [compUpdate, hb]
    simp only [evalExpr]
    simp [cuFinish, Except.map]

/-- C4 witness: a computed with a throwing body, evaluated in a state
whose ambient context is an effect: the exception propagates and both
the context and the stack come back. -/
theorem tracking_context_restored_witness :
    (c4St.comps 0).body = .throwE ∧
    (compUpdate 5 0 c4St).2 = Except.error .thrown ∧
    (compUpdate 5 0 c4St).1.curListener = some (.effExec 3) ∧
    (compUpdate 5 0 c4St).1.stack = [.effExec 3] := by
  have h := tracking_context_restored.2.2 3 0 c4St (by decide)
  refine ⟨by decide, h.1, ?_, ?_⟩
  · rw [h.2.1]
    rfl
  · rw [h.2.2]
    rfl

/-! ## C1: effect disposal does not detach (code bug) -/

/-- C1, evaluated at the failing input: `count = signal(5)`, an
attribute bound to `count` via `effect(updateAttribute)` (so the DOM
shows `id="5"` and the effect is `count`'s only subscriber), then the
disposer returned by `effect` — which `render`'s returned dispose-all
invokes — and finally `count(7)`.  The run does not throw, but the
disposed effect's body runs a second time and the DOM attribute is
rewritten to `"7"`: `dispose` only clears the pending cleanup, it
neither unsubscribes `execute` from `count`'s listener set nor sets any
kill flag, so the spec's "must prevent any future re-run / must not
mutate any DOM node" is violated by the code. -/
theorem disposed_effect_still_runs :
    c1Run.2 = Except.ok () ∧
    c1Pre.nodes 0 = NodeSt.elemNode [("id", "5")] ∧
    countEv (.effRun 0) c1Pre.trace = 1 ∧
    (c1Pre.sigs 0).listeners = [.effExec 0] ∧
    c1Run.1.nodes 0 = NodeSt.elemNode [("id", "7")] ∧
    countEv (.effRun 0) c1Run.1.trace = 2 ∧
    (c1Run.1.sigs 0).listeners = [.effExec 0] := by
  decide

/-! ## C2: component re-render never replaces mounted nodes (code bug) -/

/-- C2, evaluated at the failing input: `count = signal(1)`, a
component rendering `count` as a text node, mounted, then `count(2)`.
The component effect does re-run (two `effRun` events) and does render
the fresh tree (a second text node `"2"`, stored in the captured
`domNodes` local), but the container still holds only the node from
the first render, which still reads `"1"`: the freshly rendered nodes
never replace the previously-mounted ones — the defect the repo's own
ticket TCK-001 calls critical. -/
theorem component_rerender_never_replaces :
    c2Run.2 = Except.ok () ∧
    countEv (.effRun 0) c2Run.1.trace = 2 ∧
    c2Run.1.nNodes = 2 ∧
    c2Run.1.nodes 1 = NodeSt.textNode "2" ∧
    c2Run.1.slots 0 = [1] ∧
    c2Run.1.container = [0] ∧
    c2Run.1.nodes 0 = NodeSt.textNode "1" := by
  decide

/-! ## C6: computed is lazy and cached -/

theorem compRegisterTrace (c : Nat) (st : RState) :
    (compRegister c st).trace = st.trace := by
  unfold compRegister
  cases st.curListener <;> simp [updComp]

theorem compRegisterSigs (c : Nat) (st : RState) :
    (compRegister c st).sigs = st.sigs := by
  unfold compRegister
  cases st.curListener <;> simp [updComp]

theorem compRegisterVal (c x : Nat) (st : RState) :
    ((compRegister c st).comps x).value = (st.comps x).value ∧
    ((compRegister c st).comps x).isStale = (st.comps x).isStale := by
  unfold compRegister
  cases st.curListener with
  | none => exact ⟨rfl, rfl⟩
  | some l =>
    by_cases hx : x = c
    · subst hx; simp [updComp, upd]
    · simp [updComp, upd, hx]

/-- C6: a computed's body is not run at construction (`computed` only
allocates a stale slot and appends no event); a read of a stale
computed runs the body (a `compEval` event is appended); a read of a
non-stale computed runs no body at all — the trace is unchanged, every
cached value and staleness flag is untouched, signals are untouched —
and returns the cached value.  The final clauses trace the worked
example `count = signal(2); doubled = computed(() => count() * 2)`:
the first read evaluates once and yields `4`, a second read evaluates
nothing new, the write `count(3)` only marks stale, the next read
evaluates exactly once more and yields `6`, and a further read stays
at two evaluations. -/
theorem computed_lazy_and_cached :
    (∀ body (st : RState),
      (computed body st).1.trace = st.trace ∧
      (computed body st).1.comps (computed body st).2
        = { value := none, isStale := true, listeners := [], body := body }) ∧
    (∀ fuel c (st : RState), (st.comps c).isStale = true →
      Ev.compEval c ∈ (compRead (fuel+2) c st).1.trace.drop st.trace.length) ∧
    (∀ fuel c (st : RState), (st.comps c).isStale = false →
      (compRead (fuel+1) c st).1.trace = st.trace ∧
      (compRead (fuel+1) c st).2 = Except.ok ((st.comps c).value) ∧
      (∀ x, ((compRead (fuel+1) c st).1.comps x).value = (st.comps x).value) ∧
      (∀ x, ((compRead (fuel+1) c st).1.comps x).isStale = (st.comps x).isStale) ∧
      (compRead (fuel+1) c st).1.sigs = st.sigs) ∧
    ((c6St0.comps 0).isStale = true ∧
     countEv (.compEval 0) c6St0.trace = 0 ∧
     c6R1.2 = Except.ok (some 4) ∧
     countEv (.compEval 0) c6R1.1.trace = 1 ∧
     c6R2.2 = Except.ok (some 4) ∧
     countEv (.compEval 0) c6R2.1.trace = 1 ∧
     (c6St1.comps 0).isStale = true ∧
     countEv (.compEval 0) c6St1.trace = 1 ∧
     c6R3.2 = Except.ok (some 6) ∧
     countEv (.compEval 0) c6R3.1.trace = 2 ∧
     c6R4.2 = Except.ok (some 6) ∧
     countEv (.compEval 0) c6R4.1.trace = 2) := by
  refine ⟨?_, ?_, ?_, ?_⟩
  · intro body st
    exact ⟨rfl, by simp [computed, upd]⟩
  · intro fuel c st hstale
    simp only [compRead, hstale, if_true]
    rcases hq : evalExpr fuel (st.comps c).body (cuEnter c st) with ⟨st3, r⟩
    have hInv : Inv (cuEnter c st) st3 := by
      have hh := (preserveAll fuel).1 (st.comps c).body (cuEnter c st)
      rw [hq] at hh
      exact hh
    have hmem0 : Ev.compEval c ∈ (cuEnter c st).trace.drop st.trace.length := by
      simp [cuEnter, addTrace]
    have hmem3 : Ev.compEval c ∈ st3.trace.drop st.trace.length :=
      memDropExtend hInv.tr _ hmem0
    have hcueq : compUpdate (fuel+1) c st
        = cuFinish c st.curListener (st3, r) := by
      simp only [compUpdate, hq]
    rw [hcueq]
    cases r with
    | ok v =>
      show Ev.compEval c ∈ (compRegister c (cuFinish c st.curListener (st3, Except.ok v)).1).trace.drop st.trace.length
      rw [compRegisterTrace]
      simpa [cuFinish, updComp] using hmem3
    | error err =>
      show Ev.compEval c ∈ (cuFinish c st.curListener (st3, Except.error err)).1.trace.drop st.trace.length
      simpa [cuFinish] using hmem3
  · intro fuel c st hfresh
    simp only [compRead, hfresh, Bool.false_eq_true, if_false]
    refine ⟨compRegisterTrace c st, ?_, fun x => (compRegisterVal c x st).1,
      fun x => (compRegisterVal c x st).2, compRegisterSigs c st⟩
    show Except.ok ((compRegister c st).comps c).value
      = Except.ok ((st.comps c).value)
    rw [(compRegisterVal c c st).1]
  · refine ⟨by decide, by decide, by decide, by decide, by decide, by decide,
      by decide, by decide, by decide, by decide, by decide, by decide⟩

/-- C6 witness: the stale-read clause applied at `c6St0` (freshly
constructed, stale) and the cached-read clause applied at `c6R1.1`
(just evaluated, fresh). -/
theorem computed_lazy_and_cached_witness :
    (c6St0.comps 0).isStale = true ∧
    Ev.compEval 0 ∈ (compRead 22 0 c6St0).1.trace.drop c6St0.trace.length ∧
    (c6R1.1.comps 0).isStale = false ∧
    (compRead 21 0 c6R1.1).1.trace = c6R1.1.trace ∧
    (compRead 21 0 c6R1.1).2 = Except.ok ((c6R1.1.comps 0).value) := by
  refine ⟨by decide, ?_, by decide, ?_, ?_⟩
  · exact computed_lazy_and_cached.2.1 20 0 c6St0 (by decide)
  · exact (computed_lazy_and_cached.2.2.1 20 0 c6R1.1 (by decide)).1
  · exact (computed_lazy_and_cached.2.2.1 20 0 c6R1.1 (by decide)).2.1

/-! ## C8: effect re-entrancy guard -/

/-- C8: triggering an effect's `execute` while the same effect is
already running is a complete silent no-op — the state is returned
untouched (no body run, no cleanup run, no event) and the result is
normal, at every fuel.  The concrete clauses run the classic
synchronous cycle (an effect that writes the signal it reads): each
external trigger runs the body exactly once, the nested self-trigger
is dropped, no cleanup ever runs, and the whole run terminates
normally. -/
theorem effect_reentrancy_guard :
    (∀ fuel e (st : RState), (st.effs e).isRunning = true →
      effExecute fuel e st = (st, Except.ok ())) ∧
    (c8Run.2 = Except.ok () ∧
     (c8Run.1.sigs 0).value = some 1 ∧
     countEv (.effRun 0) c8Run.1.trace = 2 ∧
     countEv (.cleanupRun 0) c8Run.1.trace = 0) := by
  constructor
  · intro fuel e st hrun
    unfold effExecute
    rw [if_pos hrun]
  · exact ⟨by decide, by decide, by decide, by decide⟩

/-- C8 witness: an effect whose guard flag is set; `execute` returns
the state unchanged with a normal result. -/
theorem effect_reentrancy_guard_witness :
    (c8Busy.effs 0).isRunning = true ∧
    effExecute 5 0 c8Busy = (c8Busy, Except.ok ()) :=
  ⟨by decide, effect_reentrancy_guard.1 5 0 c8Busy (by decide)⟩

/-! ## C7: upstream notification is pure stale propagation -/

theorem spRefl (st : RState) : StalePass st st :=
  ⟨fun _ => rfl, fun _ => rfl, fun _ => rfl, fun _ hx => hx, rfl, rfl, rfl, rfl,
   List.prefix_rfl, by simp⟩

theorem spTrans {a b c : RState} (h1 : StalePass a b) (h2 : StalePass b c) :
    StalePass a c := by
  obtain ⟨t1, ht1⟩ := h1.tr
  obtain ⟨t2, ht2⟩ := h2.tr
  refine ⟨fun x => (h2.val x).trans (h1.val x),
    fun x => (h2.lis x).trans (h1.lis x),
    fun x => (h2.bdy x).trans (h1.bdy x),
    fun x hx => h2.stm x (h1.stm x hx),
    h2.sg.trans h1.sg, h2.ef.trans h1.ef, h2.cur.trans h1.cur,
    h2.stk.trans h1.stk, h1.tr.trans h2.tr, ?_⟩
  intro x hx
  have hc : c.trace = a.trace ++ (t1 ++ t2) := by
    rw [← List.append_assoc, ht1, ht2]
  rw [hc, List.drop_left] at hx
  rcases List.mem_append.mp hx with hmem | hmem
  · exact h1.ev x (by rw [← ht1, List.drop_left]; exact hmem)
  · exact h2.ev x (by rw [← ht2, List.drop_left]; exact hmem)

theorem spMarkStale (c : Nat) (st : RState) :
    StalePass st (updComp c (fun g => { g with isStale := true }) st) := by
  refine ⟨?_, ?_, ?_, ?_, rfl, rfl, rfl, rfl, List.prefix_rfl, ?_⟩
  · intro x
    by_cases hx : x = c
    · subst hx; simp [updComp, upd]
    · simp [updComp, upd, hx]
  · intro x
    by_cases hx : x = c
    · subst hx; simp [updComp, upd]
    · simp [updComp, upd, hx]
  · intro x
    by_cases hx : x = c
    · subst hx; simp [updComp, upd]
    · simp [updComp, upd, hx]
  · intro x hx'
    by_cases hx : x = c
    · subst hx; simp [updComp, upd]
    · simp only [updComp, upd]
      rw [if_neg hx]
      exact hx'
  · intro x hx
    simp [updComp] at hx

theorem spInvoked (l : Listener) (st : RState) :
    StalePass st (addTrace (.invoked l) st) := by
  refine ⟨fun _ => rfl, fun _ => rfl, fun _ => rfl, fun _ hx => hx, rfl, rfl,
    rfl, rfl, List.prefix_append _ _, ?_⟩
  intro x hx
  simp only [addTrace, List.drop_left, List.mem_singleton] at hx
  exact ⟨l, hx⟩

theorem compChainOnlySP {a b : RState} (h : StalePass a b)
    (hCO : compChainOnly a) : compChainOnly b := by
  intro c l hl
  exact hCO c l (by rwa [h.lis c] at hl)

/-- In a pure computed chain (no effect subscribed on any computed),
a notification pass is a `StalePass`: marking and recursive invoked
events, nothing else. -/
theorem stalePassAll : ∀ fuel : Nat,
    (∀ c st, compChainOnly st → StalePass st (compNotify fuel c st).1) ∧
    (∀ c i st, compChainOnly st → StalePass st (compNotifyFrom fuel c i st).1) ∧
    (∀ l st, compChainOnly st → (∃ c, l = Listener.compNotify c) →
      StalePass st (invokeListener fuel l st).1) := by
  intro fuel
  induction fuel with
  | zero =>
    exact ⟨fun c st _ => spRefl st, fun c i st _ => spRefl st,
      fun l st _ _ => spRefl st⟩
  | succ n ih =>
    obtain ⟨ihCN, ihCNF, ihIL⟩ := ih
    have hCNF1 : ∀ c i st, compChainOnly st →
        StalePass st (compNotifyFrom (n+1) c i st).1 := by
      intro c i st hCO
      simp only [compNotifyFrom]
      split
      · rename_i hi
        have hLmem : (st.comps c).listeners.getD i (.effExec 0)
            ∈ (st.comps c).listeners := getDMem _ _ hi
        have hL : ∃ c', (st.comps c).listeners.getD i (.effExec 0)
            = Listener.compNotify c' := hCO c _ hLmem
        rcases hq : invokeListener n ((st.comps c).listeners.getD i (.effExec 0))
            (addTrace (.invoked ((st.comps c).listeners.getD i (.effExec 0))) st)
          with ⟨st2, r⟩
        have hsp2 : StalePass st st2 := by
          have hsp := ihIL ((st.comps c).listeners.getD i (.effExec 0))
            (addTrace (.invoked ((st.comps c).listeners.getD i (.effExec 0))) st)
            (compChainOnlySP (spInvoked _ _) hCO) hL
          rw [hq] at hsp
          exact spTrans (spInvoked _ st) hsp
        cases r with
        | error err => exact hsp2
        | ok a =>
          exact spTrans hsp2
            (ihCNF c (i+1) st2 (compChainOnlySP hsp2 hCO))
      · exact spRefl st
    have hCN1 : ∀ c st, compChainOnly st →
        StalePass st (compNotify (n+1) c st).1 := by
      intro c st hCO
      simp only [compNotify]
      exact spTrans (spMarkStale c st)
        (ihCNF c 0 _ (compChainOnlySP (spMarkStale c st) hCO))
    have hIL1 : ∀ l st, compChainOnly st → (∃ c, l = Listener.compNotify c) →
        StalePass st (invokeListener (n+1) l st).1 := by
      intro l st hCO hex
      cases l with
      | compNotify c => exact ihCN c st hCO
      | effExec e =>
        rcases hex with ⟨c', hc'⟩
        cases hc'
    exact ⟨hCN1, hCNF1, hIL1⟩

/-- C7: in a pure computed chain, invoking a computed's
`notifyListeners` marks that computed stale and then only propagates:
no computed's body is evaluated (every cached value stays; signals and
effects are untouched; every appended event is a listener invocation,
never a `compEval`, `effRun` or `cleanupRun`), and — when the pass
completes normally — every listener of the computed's own subscriber
set gets invoked within the same synchronous pass. -/
theorem computed_notify_marks_stale_only (fuel c : Nat) (st : RState)
    (hCO : compChainOnly st) :
    ((compNotify (fuel+1) c st).1.comps c).isStale = true ∧
    (∀ x, ((compNotify (fuel+1) c st).1.comps x).value = (st.comps x).value) ∧
    (∀ x, ((compNotify (fuel+1) c st).1.comps x).listeners
      = (st.comps x).listeners) ∧
    (compNotify (fuel+1) c st).1.sigs = st.sigs ∧
    (compNotify (fuel+1) c st).1.effs = st.effs ∧
    (∀ ev ∈ (compNotify (fuel+1) c st).1.trace.drop st.trace.length,
      ∃ l, ev = Ev.invoked l) ∧
    ((compNotify (fuel+1) c st).2 = Except.ok () →
      ∀ l ∈ (st.comps c).listeners,
        Ev.invoked l ∈ (compNotify (fuel+1) c st).1.trace.drop st.trace.length) := by
  have heq : compNotify (fuel+1) c st
      = compNotifyFrom fuel c 0 (updComp c (fun g => { g with isStale := true }) st) := by
    simp only [compNotify]
  have hCO' : compChainOnly (updComp c (fun g => { g with isStale := true }) st) :=
    compChainOnlySP (spMarkStale c st) hCO
  have hSP2 : StalePass (updComp c (fun g => { g with isStale := true }) st)
      (compNotifyFrom fuel c 0 (updComp c (fun g => { g with isStale := true }) st)).1 :=
    (stalePassAll fuel).2.1 c 0 _ hCO'
  have hSP : StalePass st (compNotify (fuel+1) c st).1 := by
    rw [heq]
    exact spTrans (spMarkStale c st) hSP2
  refine ⟨?_, hSP.val, hSP.lis, hSP.sg, hSP.ef, hSP.ev, ?_⟩
  · rw [heq]
    refine hSP2.stm c ?_
    simp [updComp, upd]
  · intro hok l hl
    rw [heq] at hok ⊢
    rcases hq : compNotifyFrom fuel c 0
        (updComp c (fun g => { g with isStale := true }) st) with ⟨st2, r⟩
    cases r with
    | error err =>
      rw [hq] at hok
      exact Except.noConfusion hok
    | ok a =>
      cases a
      obtain ⟨j, hj, hget⟩ := List.mem_iff_getElem.mp hl
      have hls : ((updComp c (fun g => { g with isStale := true }) st).comps c).listeners
          = (st.comps c).listeners := by
        simp [updComp, upd]
      have hcov := compNotifyCoverage fuel c 0
        (updComp c (fun g => { g with isStale := true }) st) st2 hq j
        (Nat.zero_le j) (by rw [hls]; exact hj)
      rw [hls] at hcov
      rw [List.getD_eq_getElem _ _ hj, hget] at hcov
      have htrq : (updComp c (fun g => { g with isStale := true }) st).trace
          = st.trace := rfl
      rw [htrq] at hcov
      exact hcov

/-- C7 witness: the two-computed chain `stC7` is a pure computed chain;
the pass marks the head stale and recomputes nothing. -/
theorem computed_notify_marks_stale_only_witness :
    compChainOnly stC7 ∧
    ((compNotify 10 0 stC7).1.comps 0).isStale = true ∧
    (∀ x, ((compNotify 10 0 stC7).1.comps x).value = (stC7.comps x).value) ∧
    (∀ ev ∈ (compNotify 10 0 stC7).1.trace.drop stC7.trace.length,
      ∃ l, ev = Ev.invoked l) := by
  have hCO : compChainOnly stC7 := by
    intro c l hl
    by_cases h1 : c = 1
    · subst h1
      simp [stC7, upd, initState, defaultComp] at hl
    by_cases h0 : c = 0
    · subst h0
      simp [stC7, upd, initState, defaultComp] at hl
      exact ⟨1, hl⟩
    · simp [stC7, upd, initState, defaultComp, h0, h1] at hl
  exact ⟨hCO, (computed_notify_marks_stale_only 9 0 stC7 hCO).1,
    (computed_notify_marks_stale_only 9 0 stC7 hCO).2.1,
    (computed_notify_marks_stale_only 9 0 stC7 hCO).2.2.2.2.2.1⟩

/-! ## C5: batch is a dependency-tracking shield, not a deferral queue -/

theorem notMemAddIfAbsent {x l : Listener} {ls : List Listener} (hne : x ≠ l)
    (hx : x ∉ ls) : x ∉ addIfAbsent l ls := by
  unfold addIfAbsent
  split
  · exact hx
  · intro hmem
    rcases List.mem_append.mp hmem with hm | hm
    · exact hx hm
    · exact hne (by simpa using hm)

theorem esAddTrace {eid : Nat} {st : RState} (h : EffShield eid st) (ev : Ev) :
    EffShield eid (addTrace ev st) := ⟨h.1, h.2.1, h.2.2⟩

theorem esUpdSigVal {eid : Nat} {st : RState} (h : EffShield eid st)
    (s : Nat) (v : Val) :
    EffShield eid (updSig s (fun g => { g with value := v }) st) := by
  refine ⟨h.1, ?_, h.2.2⟩
  intro s'
  by_cases hs : s' = s
  · subst hs; simpa [updSig, upd] using h.2.1 s'
  · simpa [updSig, upd, hs] using h.2.1 s'

theorem esUpdCompKeepL {eid : Nat} {st : RState} (h : EffShield eid st)
    (c : Nat) (f : CompSt → CompSt)
    (hf : (f (st.comps c)).listeners = (st.comps c).listeners) :
    EffShield eid (updComp c f st) := by
  refine ⟨h.1, h.2.1, ?_⟩
  intro c'
  by_cases hc : c' = c
  · subst hc
    simpa [updComp, upd, hf] using h.2.2 c'
  · simpa [updComp, upd, hc] using h.2.2 c'

theorem esSigRegister {eid : Nat} {st : RState} (h : EffShield eid st) (s : Nat) :
    EffShield eid (sigRegister s st) := by
  unfold sigRegister
  cases hc : st.curListener with
  | none => exact h
  | some l =>
    refine ⟨h.1, ?_, h.2.2⟩
    intro s'
    by_cases hs : s' = s
    · subst hs
      have hne : Listener.effExec eid ≠ l := by
        intro hxl
        exact h.1 (by rw [hc, ← hxl])
      simpa [updSig, upd] using notMemAddIfAbsent hne (h.2.1 s')
    · simpa [updSig, upd, hs] using h.2.1 s'

theorem esCompRegister {eid : Nat} {st : RState} (h : EffShield eid st) (c : Nat) :
    EffShield eid (compRegister c st) := by
  unfold compRegister
  cases hc : st.curListener with
  | none => exact h
  | some l =>
    refine ⟨h.1, h.2.1, ?_⟩
    intro c'
    by_cases hs : c' = c
    · subst hs
      have hne : Listener.effExec eid ≠ l := by
        intro hxl
        exact h.1 (by rw [hc, ← hxl])
      simpa [updComp, upd] using notMemAddIfAbsent hne (h.2.2 c')
    · simpa [updComp, upd, hs] using h.2.2 c'

theorem shieldBindR {α β : Type} (x : RState × Except RErr α)
    (f : α → RState → RState × Except RErr β) {eid : Nat}
    (hx : EffShield eid x.1)
    (hf : ∀ a st1, EffShield eid st1 → EffShield eid (f a st1).1) :
    EffShield eid (bindR x f).1 := by
  rcases x with ⟨st1, r⟩
  cases r with
  | ok a => exact hf a st1 hx
  | error e => exact hx

theorem esCuFinish {eid : Nat} {st : RState} (c : Nat)
    (p : RState × Except RErr Val)
    (hcur : st.curListener ≠ some (.effExec eid)) (hp : EffShield eid p.1) :
    EffShield eid (cuFinish c st.curListener p).1 := by
  rcases p with ⟨st3, r⟩
  cases r with
  | ok v =>
    simp only [cuFinish]
    refine ⟨hcur, hp.2.1, ?_⟩
    intro c'
    by_cases hc : c' = c
    · subst hc; simpa [updComp, upd] using hp.2.2 c'
    · simpa [updComp, upd, hc] using hp.2.2 c'
  | error err =>
    simp only [cuFinish]
    exact ⟨hcur, hp.2.1, hp.2.2⟩

theorem esEeFinish {eid : Nat} {stA : RState} (e : Nat) (ret : Option Expr)
    (p : RState × Except RErr Val)
    (hcur : stA.curListener ≠ some (.effExec eid)) (hp : EffShield eid p.1) :
    EffShield eid (eeFinish e stA.curListener ret p).1 := by
  rcases p with ⟨st3, r⟩
  cases r with
  | ok v =>
    simp only [eeFinish]
    exact ⟨hcur, hp.2.1, hp.2.2⟩
  | error err =>
    simp only [eeFinish]
    exact ⟨hcur, hp.2.1, hp.2.2⟩

/-- If the listener closure of effect `eid` is subscribed nowhere and
is not the ambient context, then no interpreter call ever subscribes
it anywhere (it can never become the ambient context, so no read can
register it) — except, of course, running effect `eid` itself, which
only a subscription could trigger. -/
theorem effShieldAll (eid : Nat) : ∀ fuel : Nat,
    (∀ e st, EffShield eid st → EffShield eid (evalExpr fuel e st).1) ∧
    (∀ s v st, EffShield eid st → EffShield eid (sigWrite fuel s v st).1) ∧
    (∀ s i st, EffShield eid st → EffShield eid (sigNotifyFrom fuel s i st).1) ∧
    (∀ l st, EffShield eid st → l ≠ Listener.effExec eid →
      EffShield eid (invokeListener fuel l st).1) ∧
    (∀ c st, EffShield eid st → EffShield eid (compNotify fuel c st).1) ∧
    (∀ c i st, EffShield eid st → EffShield eid (compNotifyFrom fuel c i st).1) ∧
    (∀ c st, EffShield eid st → EffShield eid (compUpdate fuel c st).1) ∧
    (∀ c st, EffShield eid st → EffShield eid (compRead fuel c st).1) ∧
    (∀ c st, EffShield eid st → EffShield eid (compPeek fuel c st).1) ∧
    (∀ e st, EffShield eid st → e ≠ eid →
      EffShield eid (effExecute fuel e st).1) := by
  have hw0 : ∀ s (v : Val) st, EffShield eid st →
      EffShield eid (sigWrite 0 s v st).1 := by
    intro s v st h
    unfold sigWrite
    split
    · exact h
    · exact esAddTrace (esUpdSigVal h s v) _
  intro fuel
  induction fuel with
  | zero =>
    refine ⟨fun e st h => h, hw0, fun s i st h => h, fun l st h _ => h,
      fun c st h => h, fun c i st h => h, fun c st h => h, fun c st h => h,
      fun c st h => h, ?_⟩
    intro e st h _
    unfold effExecute
    split
    · exact h
    · exact h
  | succ n ih =>
    obtain ⟨ihE, ihW, ihSN, ihIL, ihCN, ihCNF, ihCU, ihCR, ihCP, ihEE⟩ := ih
    have hSN1 : ∀ s i st, EffShield eid st →
        EffShield eid (sigNotifyFrom (n+1) s i st).1 := by
      intro s i st h
      simp only [sigNotifyFrom]
      split
      · rename_i hi
        have hLne : (st.sigs s).listeners.getD i (.effExec 0)
            ≠ Listener.effExec eid := by
          intro hEq
          exact h.2.1 s (hEq ▸ getDMem _ _ hi)
        exact shieldBindR _ _
          (ihIL _ _ (esAddTrace h _) hLne)
          (fun _ st1 h1 => ihSN s (i+1) st1 h1)
      · exact h
    have hCNF1 : ∀ c i st, EffShield eid st →
        EffShield eid (compNotifyFrom (n+1) c i st).1 := by
      intro c i st h
      simp only [compNotifyFrom]
      split
      · rename_i hi
        have hLne : (st.comps c).listeners.getD i (.effExec 0)
            ≠ Listener.effExec eid := by
          intro hEq
          exact h.2.2 c (hEq ▸ getDMem _ _ hi)
        exact shieldBindR _ _
          (ihIL _ _ (esAddTrace h _) hLne)
          (fun _ st1 h1 => ihCNF c (i+1) st1 h1)
      · exact h
    have hCN1 : ∀ c st, EffShield eid st →
        EffShield eid (compNotify (n+1) c st).1 := by
      intro c st h
      simp only [compNotify]
      exact ihCNF c 0 _ (esUpdCompKeepL h c _ rfl)
    have hW1 : ∀ s v st, EffShield eid st →
        EffShield eid (sigWrite (n+1) s v st).1 := by
      intro s v st h
      unfold sigWrite
      split
      · exact h
      · exact shieldBindR _ _
          (ihSN s 0 _ (esAddTrace (esUpdSigVal h s v) _))
          (fun _ st2 h2 => h2)
    have hCU1 : ∀ c st, EffShield eid st →
        EffShield eid (compUpdate (n+1) c st).1 := by
      intro c st h
      simp only [compUpdate]
      refine esCuFinish c _ h.1 (ihE _ _ ?_)
      refine ⟨?_, h.2.1, h.2.2⟩
      simp [cuEnter, addTrace]
    have hCR1 : ∀ c st, EffShield eid st →
        EffShield eid (compRead (n+1) c st).1 := by
      intro c st h
      simp only [compRead]
      split
      · exact shieldBindR _ _ (ihCU c st h)
          (fun _ st1 h1 => esCompRegister h1 c)
      · exact esCompRegister h c
    have hCP1 : ∀ c st, EffShield eid st →
        EffShield eid (compPeek (n+1) c st).1 := by
      intro c st h
      simp only [compPeek]
      split
      · exact shieldBindR _ _ (ihCU c st h) (fun _ st1 h1 => h1)
      · exact h
    have hEE1 : ∀ e st, EffShield eid st → e ≠ eid →
        EffShield eid (effExecute (n+1) e st).1 := by
      intro e st h he
      unfold effExecute
      split
      · exact h
      · refine shieldBindR _ _ ?_ ?_
        · cases (st.effs e).cleanup with
          | none => exact h
          | some cl =>
            exact shieldBindR _ _ (ihE _ _ (esAddTrace h _))
              (fun _ st1 h1 => ⟨h1.1, h1.2.1, h1.2.2⟩)
        · intro a stA hA
          refine esEeFinish e _ _ hA.1 (ihE _ _ ?_)
          refine ⟨?_, hA.2.1, hA.2.2⟩
          simp only [eeEnter, addTrace]
          simpa using fun hEq => he hEq
    have hIL1 : ∀ l st, EffShield eid st → l ≠ Listener.effExec eid →
        EffShield eid (invokeListener (n+1) l st).1 := by
      intro l st h hne
      cases l with
      | compNotify c => exact ihCN c st h
      | effExec e =>
        exact ihEE e st h (fun hEq => hne (by rw [hEq]))
    have hE1 : ∀ e st, EffShield eid st →
        EffShield eid (evalExpr (n+1) e st).1 := by
      intro e st h
      cases e with
      | lit v => exact h
      | readSig s => exact esSigRegister h s
      | peekSig s => exact h
      | readComp c => exact ihCR c st h
      | peekComp c => exact ihCP c st h
      | writeSig s e1 =>
        exact shieldBindR _ _ (ihE e1 st h) (fun v st1 h1 => ihW s v st1 h1)
      | seq a b =>
        exact shieldBindR _ _ (ihE a st h) (fun _ st1 h1 => ihE b st1 h1)
      | mulC k e1 =>
        exact shieldBindR _ _ (ihE e1 st h) (fun v st1 h1 => h1)
      | addE a b =>
        exact shieldBindR _ _ (ihE a st h) (fun va st1 h1 =>
          shieldBindR _ _ (ihE b st1 h1) (fun vb st2 h2 => h2))
      | throwE => exact h
      | attrUpd node k e1 =>
        refine shieldBindR _ _ (ihE e1 st h) (fun v st1 h1 => ?_)
        cases v with
        | none =>
          show EffShield eid (removeAttr node k st1)
          exact ⟨h1.1, h1.2.1, h1.2.2⟩
        | some m =>
          show EffShield eid (setAttr node k (toString m) st1)
          exact ⟨h1.1, h1.2.1, h1.2.2⟩
      | renderTextInto slot e1 =>
        refine shieldBindR _ _ (ihE e1 st h) (fun v st1 h1 => ?_)
        cases v with
        | none => exact ⟨h1.1, h1.2.1, h1.2.2⟩
        | some m => exact ⟨h1.1, h1.2.1, h1.2.2⟩
    exact ⟨hE1, hW1, hSN1, hIL1, hCN1, hCNF1, hCU1, hCR1, hCP1, hEE1⟩

/-- C5: `batch(fn)` restores the prior tracking context and leaves the
listener stack alone in every outcome; a pure body's value passes
straight through (with `batch` a no-op on the state); a throwing body's
exception passes through, again with the context restored; the caller's
ambient effect context, if subscribed nowhere, registers no dependency
edge anywhere during the batch (the tracking shield); and — per the
concrete run — a signal write inside `batch` still synchronously
re-runs the subscribed effect before the batch ends: nothing is
deferred.  The last two clauses contrast a read of the same signal in
the same state with and without `batch`: without, the ambient effect
gets subscribed; within `batch`, it does not. -/
theorem batch_shield_semantics :
    (∀ fuel body (st : RState),
      (batchRun fuel body st).1.curListener = st.curListener ∧
      (batchRun fuel body st).1.stack = st.stack) ∧
    (∀ fuel (v : Val) (st : RState),
      batchRun (fuel+1) (.lit v) st = (st, Except.ok v)) ∧
    (∀ fuel (st : RState),
      batchRun (fuel+1) .throwE st = (st, Except.error .thrown)) ∧
    (∀ fuel body (st : RState) (eid : Nat),
      st.curListener = some (.effExec eid) → NotSub (.effExec eid) st →
      NotSub (.effExec eid) (batchRun fuel body st).1) ∧
    (c5Run.2 = Except.ok () ∧
     countEv (.effRun 0) c5Run.1.trace = 2 ∧
     (c5Run.1.sigs 0).value = some 1 ∧
     ((batchRun 10 (.readSig 0) c5St).1.sigs 0).listeners = [] ∧
     (batchRun 10 (.readSig 0) c5St).1.curListener = some (.effExec 7) ∧
     ((evalExpr 10 (.readSig 0) c5St).1.sigs 0).listeners = [.effExec 7]) := by
  refine ⟨?_, ?_, ?_, ?_, ?_⟩
  · intro fuel body st
    constructor
    · rfl
    · exact ((preserveAll fuel).1 body { st with curListener := none }).stk
  · intro fuel v st
    rfl
  · intro fuel st
    rfl
  · intro fuel body st eid hcur hns
    have hs : EffShield eid { st with curListener := none } := by
      refine ⟨by simp, hns.1, hns.2⟩
    have hfin := (effShieldAll eid fuel).1 body { st with curListener := none } hs
    exact ⟨hfin.2.1, hfin.2.2⟩
  · exact ⟨by decide, by decide, by decide, by decide, by decide, by decide⟩

/-- C5 witness: the ambient context of `c5St` is the unsubscribed
effect 7; after a batch whose body writes signal 0, that effect is
still subscribed nowhere. -/
theorem batch_shield_semantics_witness :
    c5St.curListener = some (.effExec 7) ∧
    NotSub (.effExec 7) c5St ∧
    NotSub (.effExec 7) (batchRun 10 (.writeSig 0 (.lit (some 3))) c5St).1 := by
  have h2 : NotSub (.effExec 7) c5St := by
    constructor
    · intro s
      simp [c5St, initState, defaultSig]
    · intro c
      simp [c5St, initState, defaultComp]
  exact ⟨rfl, h2,
    batch_shield_semantics.2.2.2.1 10 (.writeSig 0 (.lit (some 3))) c5St 7 rfl h2⟩

/-! ## C9 and C10: `h` child normalization -/

theorem flattenListAppend (a b : List Child) :
    flattenList (a ++ b) = flattenList a ++ flattenList b := by
  induction a with
  | nil => simp [flattenList]
  | cons c cs ih => simp [flattenList, ih]

/-- C9: the children of an `h` call are normalized by dropping
`null`/`undefined`/boolean entries, recursively flattening nested
arrays in place, passing strings, numbers and virtual elements (truthy
`type`) through unchanged, and replacing a zero-argument callable by
the immediate `String(...)` of its result; in particular the children
`[null, undefined, true, false, "a", ["b", "c"]]` normalize to exactly
`["a", "b", "c"]`. -/
theorem h_child_normalization :
    ((h (.tag "div") none
        [Child.nullV, Child.undef, Child.boolV true, Child.boolV false,
         Child.str "a", Child.arr [Child.str "b", Child.str "c"]]).children
      = [Child.str "a", Child.str "b", Child.str "c"]) ∧
    (∀ ty props pre post, (h ty props (pre ++ Child.nullV :: post)).children
      = (h ty props (pre ++ post)).children) ∧
    (∀ ty props pre post, (h ty props (pre ++ Child.undef :: post)).children
      = (h ty props (pre ++ post)).children) ∧
    (∀ ty props pre post b, (h ty props (pre ++ Child.boolV b :: post)).children
      = (h ty props (pre ++ post)).children) ∧
    (∀ ty props pre post cs, (h ty props (pre ++ Child.arr cs :: post)).children
      = (h ty props (pre ++ cs ++ post)).children) ∧
    (∀ ty props pre post s, (h ty props (pre ++ Child.str s :: post)).children
      = (h ty props pre).children ++ Child.str s :: (h ty props post).children) ∧
    (∀ ty props pre post n, (h ty props (pre ++ Child.num n :: post)).children
      = (h ty props pre).children ++ Child.num n :: (h ty props post).children) ∧
    (∀ ty props pre post ty2 ps cid, ElemTy.truthy ty2 = true →
      (h ty props (pre ++ Child.elemC ty2 ps cid :: post)).children
        = (h ty props pre).children
            ++ Child.elemC ty2 ps cid :: (h ty props post).children) ∧
    (∀ ty props pre post ret, (h ty props (pre ++ Child.fnChild ret :: post)).children
      = (h ty props pre).children
          ++ Child.str (valStr ret) :: (h ty props post).children) := by
  refine ⟨?_, ?_, ?_, ?_, ?_, ?_, ?_, ?_, ?_⟩
  · simp [h, flattenList, flattenChild, ElemTy.truthy]
  · intro ty props pre post
    simp [h, flattenListAppend, flattenList, flattenChild]
  · intro ty props pre post
    simp [h, flattenListAppend, flattenList, flattenChild]
  · intro ty props pre post b
    simp [h, flattenListAppend, flattenList, flattenChild]
  · intro ty props pre post cs
    simp [h, flattenListAppend, flattenList, flattenChild]
  · intro ty props pre post s
    simp [h, flattenListAppend, flattenList, flattenChild]
  · intro ty props pre post n
    simp [h, flattenListAppend, flattenList, flattenChild]
  · intro ty props pre post ty2 ps cid htr
    simp [h, flattenListAppend, flattenList, flattenChild, htr]
  · intro ty props pre post ret
    simp [h, flattenListAppend, flattenList, flattenChild]

/-- C9 witness: the element-passthrough clause applied to a concrete
virtual element with the truthy tag `"span"`. -/
theorem h_child_normalization_witness :
    ElemTy.truthy (.tag "span") = true ∧
    (h (.tag "div") none ([] ++ Child.elemC (.tag "span") [] 0 :: [])).children
      = (h (.tag "div") none []).children
          ++ Child.elemC (.tag "span") [] 0 :: (h (.tag "div") none []).children := by
  refine ⟨by decide, ?_⟩
  exact h_child_normalization.2.2.2.2.2.2.2.1 (.tag "div") none [] []
    (.tag "span") [] 0 (by decide)

mutual

theorem flattenChildNorm (c : Child) :
    ∀ x ∈ flattenChild c, isNormalizedChild x = true := by
  cases c with
  | nullV => simp [flattenChild]
  | undef => simp [flattenChild]
  | boolV b => simp [flattenChild]
  | str s => simp [flattenChild, isNormalizedChild]
  | num n => simp [flattenChild, isNormalizedChild]
  | elemC ty ps cid =>
    intro x hx
    by_cases htr : ty.truthy
    · simp only [flattenChild, htr, if_true, List.mem_singleton] at hx
      subst hx
      rfl
    · simp only [flattenChild, htr, if_false, Bool.false_eq_true,
        List.mem_singleton] at hx
      subst hx
      rfl
  | arr cs =>
    intro x hx
    exact flattenListNorm cs x (by simpa [flattenChild] using hx)
  | fnChild ret => simp [flattenChild, isNormalizedChild]
  | objPlain sh => simp [flattenChild, isNormalizedChild]

theorem flattenListNorm (cs : List Child) :
    ∀ x ∈ flattenList cs, isNormalizedChild x = true := by
  cases cs with
  | nil => simp [flattenList]
  | cons c rest =>
    intro x hx
    rcases List.mem_append.mp (by simpa [flattenList] using hx) with hm | hm
    · exact flattenChildNorm c x hm
    · exact flattenListNorm rest x hm

end

/-- C10: every `h` result has a filled (non-null) `props` object — a
`null` or omitted argument is replaced by an empty mapping — and every
entry of its `children` is a string, a number, or a virtual-element
object: never `null`, `undefined`, a boolean, an array, or a
function. -/
theorem h_output_invariant (ty : ElemTy)
    (props : Option (List (String × String))) (children : List Child) :
    (h ty props children).props.isSome = true ∧
    ∀ c ∈ (h ty props children).children, isNormalizedChild c = true := by
  constructor
  · rfl
  · intro c hc
    exact flattenListNorm children c hc

end Alf
